import Mathlib

/-!
Shallow embedding of the C++ plagiarism checker (`app.py`, class
`CPPSimilarityChecker`) and proofs about its similarity pipeline.

Conventions of the embedding:
* Python strings are modelled as `List Char` (ASCII reading of the Python
  character predicates `str.isalpha`, `str.isdigit`, `str.isalnum`, `\w`, `\s`).
* Python floats are modelled as exact rationals `ℚ`.
* The fixed regular expressions of the source are modelled by equivalent
  deterministic scanners (the patterns involved are backtracking-free).
* `hashlib.md5` (standard library, outside the repository) is a parameter
  `hash : Str → ℕ` of the fingerprint pipeline; `md5Model` is a concrete
  stand-in used for evaluation.
* `difflib.SequenceMatcher` (standard library, outside the repository) is
  modelled from the spec, §4.4: Ratcliff/Obershelp longest-matching-block
  decomposition, without junk heuristics (the junk heuristic of the library
  is inert on sequences shorter than 200 elements, which covers every
  concrete instance evaluated here).
* The one place where Python can raise inside the pipeline (the unguarded
  division `len(intersection) / len(union)` in `calculate_moss_similarity`)
  is modelled by an `Option`-valued division, and the `try/except` of
  `check_similarity` by an `Except`-valued result.
-/

set_option maxRecDepth 20000

/-- Python strings, modelled as lists of characters. -/
abbrev Str := List Char

/-- Coercion helper from Lean string literals. -/
def str (s : String) : Str := s.toList

/-- Double quote character. -/
def quoteD : Char := Char.ofNat 34

/-- Single quote character. -/
def quoteS : Char := Char.ofNat 39

/-- Backslash character. -/
def backslashC : Char := Char.ofNat 92

/-- Opening brace character. -/
def lbrace : Char := Char.ofNat 123

/-- Closing brace character. -/
def rbrace : Char := Char.ofNat 125

/-- Python `\s` (ASCII): space, tab, newline, carriage return, vertical tab, form feed. -/
def isWsP (c : Char) : Bool :=
  c = ' ' ∨ c = Char.ofNat 9 ∨ c = Char.ofNat 10 ∨ c = Char.ofNat 13 ∨
  c = Char.ofNat 11 ∨ c = Char.ofNat 12

/-- Characters of the operator class `[=+\-*/(){}[\];<>!&|,.]` in
`re.sub(r'\s*([=+\-*/(){}[\];<>!&|,.])\s*', r'\1', code)`. -/
def isOpP (c : Char) : Bool :=
  c = '=' ∨ c = '+' ∨ c = '-' ∨ c = '*' ∨ c = '/' ∨ c = '(' ∨ c = ')' ∨
  c = lbrace ∨ c = rbrace ∨ c = '[' ∨ c = ']' ∨ c = ';' ∨ c = '<' ∨
  c = '>' ∨ c = '!' ∨ c = '&' ∨ c = '|' ∨ c = ',' ∨ c = '.'

/-- Start of an identifier run in the tokenizer: `char.isalpha() or char == '_'`. -/
def isIdentStart (c : Char) : Bool := c.isAlpha ∨ c = '_'

/-- Continuation of an identifier run: `code[i].isalnum() or code[i] == '_'`. -/
def isIdentChar (c : Char) : Bool := c.isAlphanum ∨ c = '_'

/-- Continuation of a numeric literal run: `code[i].isdigit() or code[i] == '.'`. -/
def isNumCont (c : Char) : Bool := c.isDigit ∨ c = '.'

/-- Configuration flags of `CPPSimilarityChecker` (set in `__init__`, toggled by the UI). -/
structure Config where
  ignore_comments : Bool
  ignore_whitespace : Bool
  normalize_identifiers : Bool
deriving DecidableEq, Repr

/-- Default configuration from `CPPSimilarityChecker.__init__`: all three flags true. -/
def defaultConfig : Config := ⟨true, true, true⟩

/-- Scan for the first `*/` and return the remainder after it
(the non-greedy tail search of `re.sub(r'/\*.*?\*/', '', code, flags=re.DOTALL)`). -/
def dropToBlockClose : Str → Option Str
  | [] => none
  | [_] => none
  | c1 :: c2 :: rest =>
    if c1 = '*' ∧ c2 = '/' then some rest else dropToBlockClose (c2 :: rest)

/-- Removal of `/* ... */` comments: `re.sub(r'/\*.*?\*/', '', code, flags=re.DOTALL)`.
Leftmost, non-overlapping; an unterminated `/*` has no match and is kept. -/
def stripBlockFuel : Nat → Str → Str
  | 0, s => s
  | _ + 1, [] => []
  | fuel + 1, c1 :: rest =>
    match rest with
    | [] => [c1]
    | c2 :: rest2 =>
      if c1 = '/' ∧ c2 = '*' then
        match dropToBlockClose rest2 with
        | some after => stripBlockFuel fuel after
        | none => c1 :: rest
      else c1 :: stripBlockFuel fuel rest

/-- Removal of block comments, with enough fuel for the whole input. -/
def stripBlockComments (s : Str) : Str := stripBlockFuel (s.length + 1) s

/-- Drop to the end of the current line, keeping the newline
(the `$` of `re.sub(r'//.*?$', '', code, flags=re.MULTILINE)` matches before `\n`). -/
def dropToEol : Str → Str
  | [] => []
  | c :: cs => if c = Char.ofNat 10 then c :: cs else dropToEol cs

/-- Removal of `// ...` comments: `re.sub(r'//.*?$', '', code, flags=re.MULTILINE)`. -/
def stripLineFuel : Nat → Str → Str
  | 0, s => s
  | _ + 1, [] => []
  | fuel + 1, c1 :: rest =>
    match rest with
    | [] => [c1]
    | c2 :: rest2 =>
      if c1 = '/' ∧ c2 = '/' then stripLineFuel fuel (dropToEol rest2)
      else c1 :: stripLineFuel fuel rest

/-- Removal of line comments, with enough fuel for the whole input. -/
def stripLineComments (s : Str) : Str := stripLineFuel (s.length + 1) s

/-- State machine for `re.sub(r'\s+', ' ', code)`: a maximal whitespace run
becomes a single space. -/
def collapseWsAux (prevWs : Bool) : Str → Str
  | [] => []
  | c :: cs =>
    if isWsP c then
      if prevWs then collapseWsAux true cs else ' ' :: collapseWsAux true cs
    else c :: collapseWsAux false cs

/-- Whitespace collapsing: `re.sub(r'\s+', ' ', code)`. -/
def collapseWs (s : Str) : Str := collapseWsAux false s

/-- State machine for `re.sub(r'\s*([=+\-*/(){}[\];<>!&|,.])\s*', r'\1', code)`:
whitespace runs immediately before an operator, and immediately after one, are
deleted. `pending` buffers a whitespace run whose fate is not yet known;
`afterOp` records that the previous emitted character was an operator. -/
def stripWsOpsAux (afterOp : Bool) (pending : Str) : Str → Str
  | [] => if afterOp then [] else pending
  | c :: cs =>
    if isWsP c then stripWsOpsAux afterOp (pending ++ [c]) cs
    else if isOpP c then c :: stripWsOpsAux true [] cs
    else (if afterOp then [] else pending) ++ c :: stripWsOpsAux false [] cs

/-- Whitespace removal around operators. -/
def stripWsAroundOps (s : Str) : Str := stripWsOpsAux false [] s

/-- The C++ keyword set of `preprocess_cpp`. -/
def cppKeywords : List Str :=
  ["auto", "break", "case", "char", "const", "continue",
   "default", "do", "double", "else", "enum", "extern",
   "float", "for", "goto", "if", "int", "long", "register",
   "return", "short", "signed", "sizeof", "static", "struct",
   "switch", "typedef", "union", "unsigned", "void", "volatile",
   "while", "class", "namespace", "try", "catch", "new",
   "delete", "public", "private", "protected", "template",
   "virtual", "friend", "inline", "operator", "using", "throw"].map String.toList

/-- Decimal digit character for a value below ten. -/
def digitChar (n : ℕ) : Char :=
  if n = 0 then Char.ofNat 48
  else if n = 1 then Char.ofNat 49
  else if n = 2 then Char.ofNat 50
  else if n = 3 then Char.ofNat 51
  else if n = 4 then Char.ofNat 52
  else if n = 5 then Char.ofNat 53
  else if n = 6 then Char.ofNat 54
  else if n = 7 then Char.ofNat 55
  else if n = 8 then Char.ofNat 56
  else Char.ofNat 57

/-- Decimal rendering of a natural number (the `{identifier_counter}` part of
the f-string); fuel bounds the digit recursion, `n + 1` always suffices. -/
def natToStrFuel : ℕ → ℕ → Str
  | 0, _ => []
  | fuel + 1, n => if n < 10 then [digitChar n] else natToStrFuel fuel (n / 10) ++ [digitChar (n % 10)]

/-- Decimal rendering of a natural number. -/
def natToStr (n : ℕ) : Str := natToStrFuel (n + 1) n

/-- Canonical identifier produced by the tokenizer: `f"VAR_{identifier_counter}"`. -/
def varName (n : Nat) : Str := str "VAR_" ++ natToStr n

/-- Numeric literal marker token. -/
def numTok : Str := str "NUM"

/-- String literal marker token. -/
def strTok : Str := str "STR"

/-- Lookup in the identifier table (`identifier_map`). -/
def assocFind (m : List (Str × Str)) (w : Str) : Option Str :=
  match m with
  | [] => none
  | (k, v) :: r => if k = w then some v else assocFind r w

/-- Consume a quoted literal after its opening quote `q`: scan to the closing
quote, a backslash skipping the next character, an unterminated literal
consuming to end of input; returns the remainder after the closing quote. -/
def skipStringLit (q : Char) : Str → Str
  | [] => []
  | [c] => if c = q then [] else []
  | c :: c2 :: cs2 =>
    if c = q then c2 :: cs2
    else if c = backslashC then skipStringLit q cs2
    else skipStringLit q (c2 :: cs2)

/-- The tokenizer loop of `preprocess_cpp` (the `while i < len(code)` loop):
identifier/keyword runs, numeric literals to `NUM`, quoted literals to `STR`,
any other character a one-character token; non-keyword identifiers are renamed
through `identifier_map` in first-seen order. The fuel argument is an upper
bound on the number of loop iterations; every iteration consumes at least one
character, so `length + 1` is always sufficient. -/
def tokenizeFuel : Nat → Str → List (Str × Str) → Nat → List Str
  | 0, _, _, _ => []
  | _ + 1, [], _, _ => []
  | fuel + 1, c :: cs, idmap, counter =>
    if isIdentStart c then
      let w := c :: cs.takeWhile isIdentChar
      let rest := cs.dropWhile isIdentChar
      if w ∈ cppKeywords then
        w :: tokenizeFuel fuel rest idmap counter
      else
        match assocFind idmap w with
        | some v => v :: tokenizeFuel fuel rest idmap counter
        | none =>
          varName counter :: tokenizeFuel fuel rest ((w, varName counter) :: idmap) (counter + 1)
    else if c.isDigit then
      numTok :: tokenizeFuel fuel (cs.dropWhile isNumCont) idmap counter
    else if c = quoteD ∨ c = quoteS then
      strTok :: tokenizeFuel fuel (skipStringLit c cs) idmap counter
    else
      [c] :: tokenizeFuel fuel cs idmap counter

/-- Tokenization with a fresh identifier table, as performed per call. -/
def tokenize (s : Str) : List Str := tokenizeFuel (s.length + 1) s [] 0

/-- Rejoining of the token sequence: `' '.join(tokens)`. -/
def renderJoin (ts : List Str) : Str := List.intercalate [' '] ts

/-- Comment-removal phase of `preprocess_cpp` (block comments, then line comments). -/
def commentPhase (cfg : Config) (code : Str) : Str :=
  if cfg.ignore_comments then stripLineComments (stripBlockComments code) else code

/-- Whitespace phase of `preprocess_cpp` (collapse runs, then strip around operators). -/
def whitespacePhase (cfg : Config) (code : Str) : Str :=
  if cfg.ignore_whitespace then stripWsAroundOps (collapseWs code) else code

/-- The method `preprocess_cpp` of `CPPSimilarityChecker`. -/
def preprocess_cpp (cfg : Config) (code : Str) : Str :=
  let c := whitespacePhase cfg (commentPhase cfg code)
  if cfg.normalize_identifiers then renderJoin (tokenize c) else c

/-- Python `str.split()` (no argument): split on whitespace runs, dropping
empty pieces. The accumulator holds the current word reversed. -/
def splitWsAux (cur : Str) : Str → List Str
  | [] => if cur = [] then [] else [cur.reverse]
  | c :: cs =>
    if isWsP c then
      if cur = [] then splitWsAux [] cs else cur.reverse :: splitWsAux [] cs
    else splitWsAux (c :: cur) cs

/-- Whitespace splitting, `code.split()`. -/
def splitWs (s : Str) : List Str := splitWsAux [] s

/-- Python `str.split('\n')`: split at newlines, keeping empty pieces
(a string without newline yields a one-element list). -/
def splitNlAux (cur : Str) : Str → List Str
  | [] => [cur.reverse]
  | c :: cs =>
    if c = Char.ofNat 10 then cur.reverse :: splitNlAux [] cs
    else splitNlAux (c :: cur) cs

/-- Newline splitting, `code.split('\n')`. -/
def splitNl (s : Str) : List Str := splitNlAux [] s

/-- Modelled from the spec: `hashlib.md5` (Python standard library, not part of
the repository) interpreted as an arbitrary "uniformly distributed string hash";
per §4.2 exact bit values are irrelevant, only selection/comparison behaviour.
This concrete stand-in is a 64-bit polynomial hash used when claims are
evaluated on concrete inputs. -/
def md5Model (s : Str) : ℕ :=
  s.foldl (fun h c => (h * 131 + c.toNat) % (2 ^ 64)) 5381

/-- Minimum of a nonempty list of naturals, `min(window)` (the `[]` case is
never reached from `winnow` with a positive window size). -/
def listMin : List ℕ → ℕ
  | [] => 0
  | h :: t => t.foldl Nat.min h

/-- The helper `get_kgram_hashes(code, k)` of `calculate_moss_similarity`:
whitespace tokens, all contiguous k-grams joined with single spaces, each
hashed. Lists shorter than `k` yield the empty hash list. -/
def get_kgram_hashes (hash : Str → ℕ) (code : Str) (k : ℕ) : List ℕ :=
  let tokens := splitWs code
  if tokens.length < k then []
  else
    let kgrams := (List.range (tokens.length - k + 1)).map
      (fun i => renderJoin ((tokens.drop i).take k))
    kgrams.map hash

/-- The helper `winnow(hashes, w)` of `calculate_moss_similarity`: a list
shorter than `w` is returned whole; otherwise each sliding window of `w`
hashes contributes its minimum (with the leftmost position recorded), appended
only when it differs from the previously appended hash; positions are then
discarded. -/
def winnow (hashes : List ℕ) (w : ℕ) : List ℕ :=
  if hashes.length < w then hashes
  else
    let windows := (List.range (hashes.length - w + 1)).map
      (fun i => (hashes.drop i).take w)
    let fingerprints := (List.zip (List.range windows.length) windows).foldl
      (fun acc iw =>
        let minHash := listMin iw.2
        let minPos := iw.2.indexOf minHash + iw.1
        match acc.getLast? with
        | none => acc ++ [(minHash, minPos)]
        | some last => if last.1 ≠ minHash then acc ++ [(minHash, minPos)] else acc)
      []
    fingerprints.map Prod.fst

/-- The method `calculate_moss_similarity(code1, code2, k, w)`: preprocess both
sides, hash k-grams, winnow, convert to sets, and return the Jaccard overlap,
with 0 when either fingerprint set is empty. The final division (the only
unguarded division of the pipeline) is modelled as checked: `none` stands for a
`ZeroDivisionError`. -/
def calculate_moss_similarity (hash : Str → ℕ) (cfg : Config)
    (code1 code2 : Str) (k w : ℕ) : Option ℚ :=
  let hashes1 := get_kgram_hashes hash (preprocess_cpp cfg code1) k
  let hashes2 := get_kgram_hashes hash (preprocess_cpp cfg code2) k
  let fingerprints1 := (winnow hashes1 w).toFinset
  let fingerprints2 := (winnow hashes2 w).toFinset
  if fingerprints1 = ∅ ∨ fingerprints2 = ∅ then some 0
  else
    let inter := fingerprints1 ∩ fingerprints2
    let union := fingerprints1 ∪ fingerprints2
    if union.card = 0 then none
    else some ((inter.card : ℚ) / (union.card : ℚ))

/-- Length of the longest common prefix of two lists. -/
def commonPrefixLen {α : Type} [DecidableEq α] : List α → List α → ℕ
  | a :: as, b :: bs => if a = b then commonPrefixLen as bs + 1 else 0
  | _, _ => 0

/-- Modelled from the spec: `difflib.SequenceMatcher.find_longest_match`
(standard library, outside the repository), per §4.4: among all maximal
matching contiguous blocks return the one starting earliest in the first
sequence, ties broken by earliest start in the second sequence. Realised as a
fold over all start pairs with strict improvement, which yields exactly that
block. -/
def findLongestMatch {α : Type} [DecidableEq α] (a b : List α) : ℕ × ℕ × ℕ :=
  (List.range (a.length + 1)).foldl
    (fun best i =>
      (List.range (b.length + 1)).foldl
        (fun best2 j =>
          let k := commonPrefixLen (a.drop i) (b.drop j)
          if best2.2.2 < k then (i, j, k) else best2)
        best)
    (0, 0, 0)

/-- Modelled from the spec: the recursive decomposition of
`difflib.SequenceMatcher.get_matching_blocks`, §4.4: find the longest matching
block, recurse on the left and right remainders. Offsets `ai`, `bi` translate
region-relative indices to absolute ones. Fuel bounds the recursion depth;
each recursive call strictly shrinks the combined region length, so
`a.length + b.length + 1` always suffices. -/
def matchingBlocksFuel {α : Type} [DecidableEq α] :
    ℕ → List α → List α → ℕ → ℕ → List (ℕ × ℕ × ℕ)
  | 0, _, _, _, _ => []
  | fl + 1, a, b, ai, bi =>
    let m := findLongestMatch a b
    if m.2.2 = 0 then []
    else
      matchingBlocksFuel fl (a.take m.1) (b.take m.2.1) ai bi ++
      [(ai + m.1, bi + m.2.1, m.2.2)] ++
      matchingBlocksFuel fl (a.drop (m.1 + m.2.2)) (b.drop (m.2.1 + m.2.2))
        (ai + m.1 + m.2.2) (bi + m.2.1 + m.2.2)

/-- Adjacent-block merging of `get_matching_blocks` (blocks that touch in both
sequences are coalesced). -/
def mergeAdjacent : List (ℕ × ℕ × ℕ) → List (ℕ × ℕ × ℕ)
  | (i1, j1, k1) :: (i2, j2, k2) :: rest =>
    if i1 + k1 = i2 ∧ j1 + k1 = j2 then mergeAdjacent ((i1, j1, k1 + k2) :: rest)
    else (i1, j1, k1) :: mergeAdjacent ((i2, j2, k2) :: rest)
  | l => l

/-- Modelled from the spec: `difflib.SequenceMatcher.get_matching_blocks` —
the sorted matching blocks, adjacent blocks merged, with the trailing
`(len(a), len(b), 0)` sentinel. -/
def getMatchingBlocks {α : Type} [DecidableEq α] (a b : List α) : List (ℕ × ℕ × ℕ) :=
  mergeAdjacent (matchingBlocksFuel (a.length + b.length + 1) a b 0 0) ++
  [(a.length, b.length, 0)]

/-- Modelled from the spec: `difflib.SequenceMatcher.ratio`, §4.4:
`2*M / (lenA + lenB)` where `M` is the total matched length, and 1.0 when both
sequences are empty (the guard of `difflib._calculate_ratio`). -/
def matcherRatio {α : Type} [DecidableEq α] (a b : List α) : ℚ :=
  let m := ((getMatchingBlocks a b).map (fun blk => blk.2.2)).sum
  if a.length + b.length = 0 then 1
  else (2 * m : ℚ) / ((a.length + b.length : ℕ) : ℚ)

/-- Python regex `\w` (ASCII): alphanumeric or underscore. -/
def isWChar (c : Char) : Bool := c.isAlphanum ∨ c = '_'

/-- Deterministic scanner for one attempt of the function pattern
`\w+\s+(\w+)\s*\([^)]*\)\s*{[^}]*}` at the start of `s`; returns the capture
group and the remainder after the match. For this pattern, greedy matching of
the maximal character-class runs never needs backtracking, so the scanner is
equivalent to the regex. -/
def matchFuncPat (s : Str) : Option (Str × Str) :=
  match s with
  | [] => none
  | c :: _ =>
    if ¬ isWChar c then none
    else
      match s.dropWhile isWChar with
      | [] => none
      | c1 :: r1tail =>
        if ¬ isWsP c1 then none
        else
          let r2 := (c1 :: r1tail).dropWhile isWsP
          let w2 := r2.takeWhile isWChar
          if w2 = [] then none
          else
            match (r2.dropWhile isWChar).dropWhile isWsP with
            | '(' :: r4 =>
              match r4.dropWhile (fun d => d != ')') with
              | ')' :: r6 =>
                match r6.dropWhile isWsP with
                | cb :: r8 =>
                  if cb = lbrace then
                    match r8.dropWhile (fun d => d != rbrace) with
                    | ce :: r10 => if ce = rbrace then some (w2, r10) else none
                    | [] => none
                  else none
                | [] => none
              | _ => none
            | _ => none

/-- Deterministic scanner for one attempt of the class pattern
`class\s+(\w+)[^{]*{[^}]*}` at the start of `s` (no backtracking needed). -/
def matchClassPat (s : Str) : Option (Str × Str) :=
  if (str "class").isPrefixOf s then
    match s.drop 5 with
    | [] => none
    | c :: r1tail =>
      if ¬ isWsP c then none
      else
        let r2 := (c :: r1tail).dropWhile isWsP
        let w := r2.takeWhile isWChar
        if w = [] then none
        else
          match (r2.dropWhile isWChar).dropWhile (fun d => d != lbrace) with
          | cb :: r4 =>
            if cb = lbrace then
              match r4.dropWhile (fun d => d != rbrace) with
              | ce :: r6 => if ce = rbrace then some (w, r6) else none
              | [] => none
            else none
          | [] => none
  else none

/-- Scanning loop of `re.findall` for a single-group pattern: try a match at
every position, left to right, non-overlapping, collecting the captures. -/
def findAllFuel (matcher : Str → Option (Str × Str)) : Nat → Str → List Str
  | 0, _ => []
  | _ + 1, [] => []
  | fuel + 1, c :: rest =>
    match matcher (c :: rest) with
    | some (cap, after) => cap :: findAllFuel matcher fuel after
    | none => findAllFuel matcher fuel rest

/-- Control keywords counted by `extract_structure`. -/
def ctrlKeywords : List Str := ["if", "else", "for", "while", "switch", "case"].map String.toList

/-- Number of matches of `re.findall(rf'\b{ctrl}\b', code)`: occurrences of the
word with no word character on either side (the control words never overlap
themselves, so position counting equals match counting). -/
def countWordBoundary (w : Str) (s : Str) : ℕ :=
  countWBAux w none s
where
  countWBAux (w : Str) (prev : Option Char) : Str → ℕ
  | [] => 0
  | c :: cs =>
    let prevOk : Bool := match prev with | none => true | some p => ¬ isWChar p
    let nextOk : Bool := match (c :: cs).drop w.length with | [] => true | d :: _ => ¬ isWChar d
    (if w.isPrefixOf (c :: cs) ∧ prevOk ∧ nextOk then 1 else 0) + countWBAux w (some c) cs

/-- Structural profile extracted by the helper `extract_structure` of
`calculate_structure_similarity`: function-name multiset, class-name multiset
(as occurrence lists), and the control-keyword count map (an association list
in insertion order, one entry per control keyword). -/
structure StructuralProfile where
  functions : List Str
  classes : List Str
  control_structures : List (Str × ℕ)
deriving DecidableEq, Repr

/-- The helper `extract_structure(code)` of `calculate_structure_similarity`. -/
def extract_structure (code : Str) : StructuralProfile :=
  { functions := findAllFuel matchFuncPat (code.length + 1) code
    classes := findAllFuel matchClassPat (code.length + 1) code
    control_structures := ctrlKeywords.map (fun k => (k, countWordBoundary k code)) }

/-- The helper `count_similarity(counter1, counter2)`: 1.0 when both Counters
are empty, 0.0 when exactly one is, otherwise the ratio of the total multiset
intersection to the total multiset union (`sum((c1 & c2).values()) /
sum((c1 | c2).values())`, guarded by `if total > 0`). -/
def count_similarity (l1 l2 : List Str) : ℚ :=
  if l1 = [] ∧ l2 = [] then 1
  else if l1 = [] ∨ l2 = [] then 0
  else
    let keys := (l1 ++ l2).toFinset
    let common : ℕ := keys.sum (fun s => Nat.min (l1.count s) (l2.count s))
    let total : ℕ := keys.sum (fun s => Nat.max (l1.count s) (l2.count s))
    if 0 < total then (common : ℚ) / (total : ℚ) else 0

/-- Value of a control-count map at a key: `ctrl.get(key, 0)`. -/
def ctrlGet (d : List (Str × ℕ)) (k : Str) : ℕ := ((d.lookup k).getD 0)

/-- Key set of the union of two control-count maps:
`set(ctrl1.keys()) | set(ctrl2.keys())`. -/
def ctrlAllKeys (d1 d2 : List (Str × ℕ)) : Finset Str :=
  (d1.map Prod.fst ++ d2.map Prod.fst).toFinset

/-- Sum of `abs(val1 - val2)` over the key union (`differences` in
`control_similarity`; on naturals `|a - b| = max a b - min a b`). -/
def ctrlDifferences (d1 d2 : List (Str × ℕ)) : ℕ :=
  (ctrlAllKeys d1 d2).sum (fun k =>
    Nat.max (ctrlGet d1 k) (ctrlGet d2 k) - Nat.min (ctrlGet d1 k) (ctrlGet d2 k))

/-- Sum of `max(val1, val2)` over the key union (`max_possible_diff` in
`control_similarity`). -/
def ctrlMaxPossible (d1 d2 : List (Str × ℕ)) : ℕ :=
  (ctrlAllKeys d1 d2).sum (fun k => Nat.max (ctrlGet d1 k) (ctrlGet d2 k))

/-- The helper `control_similarity(ctrl1, ctrl2)`: 1.0 for an empty key union,
otherwise `1 - differences / maxPossible` over the key union, the quotient
guarded to 0 when `maxPossible` is 0. -/
def control_similarity (d1 d2 : List (Str × ℕ)) : ℚ :=
  if ctrlAllKeys d1 d2 = ∅ then 1
  else
    1 - (if 0 < ctrlMaxPossible d1 d2 then
      (ctrlDifferences d1 d2 : ℚ) / (ctrlMaxPossible d1 d2 : ℚ) else 0)

/-- The method `calculate_structure_similarity(code1, code2)`: weighted sum
`0.4 * func_sim + 0.3 * class_sim + 0.3 * ctrl_sim` over profiles extracted
from the original (unpreprocessed) texts. -/
def calculate_structure_similarity (code1 code2 : Str) : ℚ :=
  let structure1 := extract_structure code1
  let structure2 := extract_structure code2
  (4 / 10) * count_similarity structure1.functions structure2.functions +
  (3 / 10) * count_similarity structure1.classes structure2.classes +
  (3 / 10) * control_similarity structure1.control_structures structure2.control_structures

/-- The method `calculate_line_similarity(code1, code2)`: SequenceMatcher ratio
over the newline-split preprocessed texts. -/
def calculate_line_similarity (cfg : Config) (code1 code2 : Str) : ℚ :=
  matcherRatio (splitNl (preprocess_cpp cfg code1)) (splitNl (preprocess_cpp cfg code2))

/-- One suspicious segment of `identify_similar_segments` (dictionary keys of
the source preserved as field names; line numbers 1-indexed). -/
structure MatchingSegment where
  file1_start_line : ℕ
  file2_start_line : ℕ
  length : ℕ
  file1_segment : Str
  file2_segment : Str
  similarity : ℚ
deriving DecidableEq, Repr

/-- Python `'\n'.join(lines)`. -/
def joinNl (ls : List Str) : Str := List.intercalate [Char.ofNat 10] ls

/-- Stable descending insertion by similarity: an element is placed after every
already-placed element of greater or equal similarity, which is exactly the
order of Python `list.sort(key=..., reverse=True)` (a stable descending sort). -/
def insertSegDesc (x : MatchingSegment) : List MatchingSegment → List MatchingSegment
  | [] => [x]
  | y :: ys => if y.similarity < x.similarity then x :: y :: ys else y :: insertSegDesc x ys

/-- Stable descending sort by similarity, `suspicious_segments.sort(key=lambda x: x['similarity'], reverse=True)`. -/
def sortBySimilarityDesc (l : List MatchingSegment) : List MatchingSegment :=
  l.foldl (fun acc x => insertSegDesc x acc) []

/-- The method `identify_similar_segments(code1, code2, min_length)`: matching
blocks of the newline-split preprocessed texts, filtered to `size >=
min_length`, mapped back to the original line arrays (clamped), scored by a
character-level SequenceMatcher ratio on the original segments, and sorted by
descending similarity. -/
def identify_similar_segments (cfg : Config) (code1 code2 : Str) (minLength : ℕ) :
    List MatchingSegment :=
  let lines1 := splitNl (preprocess_cpp cfg code1)
  let lines2 := splitNl (preprocess_cpp cfg code2)
  let blocks := getMatchingBlocks lines1 lines2
  let segments := blocks.filterMap (fun blk =>
    if minLength ≤ blk.2.2 then
      let originalLines1 := splitNl code1
      let originalLines2 := splitNl code2
      let iEnd := Nat.min (blk.1 + blk.2.2) originalLines1.length
      let jEnd := Nat.min (blk.2.1 + blk.2.2) originalLines2.length
      let segment1 := joinNl ((originalLines1.drop blk.1).take (iEnd - blk.1))
      let segment2 := joinNl ((originalLines2.drop blk.2.1).take (jEnd - blk.2.1))
      some { file1_start_line := blk.1 + 1
             file2_start_line := blk.2.1 + 1
             length := blk.2.2
             file1_segment := segment1
             file2_segment := segment2
             similarity := matcherRatio segment1 segment2 }
    else none)
  sortBySimilarityDesc segments

/-- The report dictionary assembled by `check_similarity` (summary, details and
suspicious segments flattened into one record, field names as in the source). -/
structure SimilarityReport where
  similarity_level : String
  overall_similarity : ℚ
  moss_similarity : ℚ
  structure_similarity : ℚ
  line_similarity : ℚ
  suspicious_segments : List MatchingSegment
deriving DecidableEq, Repr

/-- The method `check_similarity(code1, code2)`: the three analyses, the
weighted overall score, the qualitative level thresholds, the top five
suspicious segments; the surrounding `try/except` is modelled by the `Except`
result, the `error` branch taken exactly when a modelled fault occurs. -/
def check_similarity (hash : Str → ℕ) (cfg : Config) (code1 code2 : Str) :
    Except String SimilarityReport :=
  match calculate_moss_similarity hash cfg code1 code2 5 10 with
  | none => Except.error "division by zero"
  | some moss_sim =>
    let structure_sim := calculate_structure_similarity code1 code2
    let line_sim := calculate_line_similarity cfg code1 code2
    let overall_sim := (5 / 10) * moss_sim + (3 / 10) * structure_sim + (2 / 10) * line_sim
    let similarity_level : String :=
      if 8 / 10 ≤ overall_sim then "Very High"
      else if 6 / 10 ≤ overall_sim then "High"
      else if 4 / 10 ≤ overall_sim then "Moderate"
      else if 2 / 10 ≤ overall_sim then "Low"
      else "Very Low"
    let suspicious_segments := identify_similar_segments cfg code1 code2 3
    Except.ok
      { similarity_level := similarity_level
        overall_similarity := overall_sim
        moss_similarity := moss_sim
        structure_similarity := structure_sim
        line_similarity := line_sim
        suspicious_segments := suspicious_segments.take 5 }

/-- Projection of the `Except` result to an `Option` (drops the error message). -/
def reportOf (r : Except String SimilarityReport) : Option SimilarityReport :=
  match r with
  | Except.ok x => some x
  | Except.error _ => none

/-- Winnowing as worded in the spec, §4.2 step 3: the fingerprint sequence is
the whole hash list when it is shorter than `w`; otherwise the sequence of
window minima (leftmost minimum of each sliding window of `w` hashes), each
appended only when it differs from the previously appended hash. Stated
independently of the positional bookkeeping of the source `winnow`. -/
def winnowSpec (hashes : List ℕ) (w : ℕ) : List ℕ :=
  if hashes.length < w then hashes
  else
    ((List.range (hashes.length - w + 1)).map (fun i => listMin ((hashes.drop i).take w))).foldl
      (fun acc m =>
        match acc.getLast? with
        | none => acc ++ [m]
        | some last => if last = m then acc else acc ++ [m])
      []

/-- Jaccard similarity of two fingerprint sets as worded in the spec, §4.2
step 4: 0 when either set is empty, otherwise `|A ∩ B| / |A ∪ B|`. -/
def jaccardSpec (a b : Finset ℕ) : ℚ :=
  if a = ∅ ∨ b = ∅ then 0
  else ((a ∩ b).card : ℚ) / ((a ∪ b).card : ℚ)

/-- Tokenization as the spec describes it for `normalizeIdentifiers = false`
(§4.1: literals become marker tokens, identifiers are kept literal, the output
is the token sequence rejoined with single spaces). The source skips
tokenization entirely in that case; this definition expresses the claimed
behaviour for comparison. -/
def tokenizeKeepIdsFuel : Nat → Str → List Str
  | 0, _ => []
  | _ + 1, [] => []
  | fuel + 1, c :: cs =>
    if isIdentStart c then
      (c :: cs.takeWhile isIdentChar) :: tokenizeKeepIdsFuel fuel (cs.dropWhile isIdentChar)
    else if c.isDigit then
      numTok :: tokenizeKeepIdsFuel fuel (cs.dropWhile isNumCont)
    else if c = quoteD ∨ c = quoteS then
      strTok :: tokenizeKeepIdsFuel fuel (skipStringLit c cs)
    else
      [c] :: tokenizeKeepIdsFuel fuel cs

/-- Tokenization with identifiers kept literal, with enough fuel for the input. -/
def tokenizeKeepIds (s : Str) : List Str := tokenizeKeepIdsFuel (s.length + 1) s

/-- Word-shaped token: nonempty, starts like an identifier, all identifier
characters (keywords, canonical identifiers and the NUM/STR markers all have
this shape). -/
def isWordTok (t : Str) : Bool :=
  match t with
  | [] => false
  | c :: _ => isIdentStart c && t.all isIdentChar

/-- Single operator-character token. -/
def isOpTok (t : Str) : Bool :=
  match t with
  | [c] => isOpP c
  | _ => false

/-- Value of a decimal digit string (inverse of `natToStr` on its image). -/
def digitsVal (ds : Str) : ℕ := ds.foldl (fun a c => 10 * a + (c.toNat - 48)) 0

/-- Parse a canonical identifier `VAR_i` back to its index `i`; `none` for any
other token. -/
def varNameIndex (t : Str) : Option ℕ :=
  match t with
  | 'V' :: 'A' :: 'R' :: '_' :: ds =>
    if natToStr (digitsVal ds) = ds then some (digitsVal ds) else none
  | _ => none

/-- Canonical identifiers occur in first-occurrence order starting at `n`:
every `VAR_i` in the list is either already known (`i < n`) or the next fresh
one (`i = n`), in which case the threshold advances. -/
def NewAsc : ℕ → List Str → Prop
  | _, [] => True
  | n, t :: ts =>
    match varNameIndex t with
    | none => NewAsc n ts
    | some i => (i < n ∧ NewAsc n ts) ∨ (i = n ∧ NewAsc (n + 1) ts)

/-- Identifier table produced by tokenizing an already-canonical text: the
first `n` canonical identifiers each mapped to themselves (most recent first,
as `tokenize` pushes to the front). -/
def mkIdMap : ℕ → List (Str × Str)
  | 0 => []
  | n + 1 => (varName n, varName n) :: mkIdMap n

/-- Separator left between two tokens by whitespace collapsing of the rejoined
stream: the three spaces around a space token collapse into it, other tokens
stay separated by one space. -/
def denseSep (t1 t2 : Str) : Str := if t1 = [' '] ∨ t2 = [' '] then [] else [' ']

/-- The rejoined token stream after whitespace collapsing. -/
def denseRender : List Str → Str
  | [] => []
  | [t] => t
  | t1 :: t2 :: ts => t1 ++ denseSep t1 t2 ++ denseRender (t2 :: ts)

/-- Absence of an adjacent character pair `a`, `b` (no `ab` substring). -/
def noPair (a b : Char) : Str → Prop
  | [] => True
  | [_] => True
  | c1 :: c2 :: rest => ¬ (c1 = a ∧ c2 = b) ∧ noPair a b (c2 :: rest)

/-- Adjacency invariant of the whitespace-normalized text: no two adjacent
whitespace characters and no whitespace adjacent to an operator character. -/
def cleanAdj (c1 c2 : Char) : Prop :=
  ¬ (isWsP c1 ∧ isWsP c2) ∧ ¬ (isWsP c1 ∧ isOpP c2) ∧ ¬ (isOpP c1 ∧ isWsP c2)

/-- Adjacency invariant of a canonical token stream: no two adjacent word
tokens, no two adjacent space tokens, and no space token adjacent to an
operator token. -/
def tokAdj (t1 t2 : Str) : Prop :=
  ¬ (isWordTok t1 ∧ isWordTok t2) ∧ ¬ (t1 = [' '] ∧ t2 = [' ']) ∧
  ¬ (t1 = [' '] ∧ isOpTok t2) ∧ ¬ (isOpTok t1 ∧ t2 = [' '])


theorem winnow_eq_winnowSpec (hashes : List ℕ) (w : ℕ) : winnow hashes w = winnowSpec hashes w := by
  have gl : ∀ (acc : List (ℕ × ℕ)), (acc.map Prod.fst).getLast? = acc.getLast?.map Prod.fst :=
    fun acc => List.getLast?_map _ _
  have key : ∀ (l : List (ℕ × List ℕ)) (acc : List (ℕ × ℕ)),
      (List.foldl (fun acc iw =>
        let minHash := listMin iw.2
        let minPos := iw.2.indexOf minHash + iw.1
        match acc.getLast? with
        | none => acc ++ [(minHash, minPos)]
        | some last => if last.1 ≠ minHash then acc ++ [(minHash, minPos)] else acc) acc l).map Prod.fst
      = List.foldl (fun acc m =>
        match acc.getLast? with
        | none => acc ++ [m]
        | some last => if last = m then acc else acc ++ [m]) (acc.map Prod.fst)
        (l.map (fun iw => listMin iw.2)) := by
    intro l
    induction l with
    | nil => intro acc; rfl
    | cons hd tl ih =>
      intro acc
      simp only [List.foldl_cons, List.map_cons]
      rw [ih]
      congr 1
      cases hacc : acc.getLast? with
      | none => simp [gl, hacc]
      | some last =>
        by_cases hm : last.1 = listMin hd.2
        · simp [gl, hacc, hm]
        · simp [gl, hacc, hm]
  have hz : ∀ (ws : List (List ℕ)),
      (List.zip (List.range ws.length) ws).map (fun iw => listMin iw.2) = ws.map listMin := by
    intro ws
    have h1 : (List.zip (List.range ws.length) ws).map Prod.snd = ws :=
      List.map_snd_zip _ _ (by simp)
    have h2 : (fun iw : ℕ × List ℕ => listMin iw.2) = listMin ∘ Prod.snd := rfl
    rw [h2, ← List.map_map, h1]
  rw [winnow, winnowSpec]
  by_cases hlen : hashes.length < w
  · simp [hlen]
  · simp only [hlen, if_false]
    rw [key, hz]
    simp only [List.map_nil, List.map_map]
    rfl

theorem moss_eq_jaccard (hash : Str → ℕ) (cfg : Config) (c1 c2 : Str) (k w : ℕ) :
    calculate_moss_similarity hash cfg c1 c2 k w =
      some (jaccardSpec (winnow (get_kgram_hashes hash (preprocess_cpp cfg c1) k) w).toFinset
        (winnow (get_kgram_hashes hash (preprocess_cpp cfg c2) k) w).toFinset) := by
  simp only [calculate_moss_similarity, jaccardSpec]
  by_cases h : (winnow (get_kgram_hashes hash (preprocess_cpp cfg c1) k) w).toFinset = ∅ ∨
      (winnow (get_kgram_hashes hash (preprocess_cpp cfg c2) k) w).toFinset = ∅
  · rw [if_pos h, if_pos h]
  · have hne : ¬ ((winnow (get_kgram_hashes hash (preprocess_cpp cfg c1) k) w).toFinset ∪
        (winnow (get_kgram_hashes hash (preprocess_cpp cfg c2) k) w).toFinset).card = 0 := by
      push_neg at h
      have hnon : ((winnow (get_kgram_hashes hash (preprocess_cpp cfg c1) k) w).toFinset ∪
          (winnow (get_kgram_hashes hash (preprocess_cpp cfg c2) k) w).toFinset).Nonempty := by
        rcases Finset.nonempty_iff_ne_empty.2 h.1 with ⟨x, hx⟩
        exact ⟨x, Finset.mem_union_left _ hx⟩
      exact Finset.card_ne_zero.2 hnon
    rw [if_neg h, if_neg h, if_neg hne]

theorem moss_isSome (hash : Str → ℕ) (cfg : Config) (c1 c2 : Str) (k w : ℕ) :
    ∃ q, calculate_moss_similarity hash cfg c1 c2 k w = some q :=
  ⟨_, moss_eq_jaccard hash cfg c1 c2 k w⟩

/-- C6: the winnowing step behaves exactly as specified — lists shorter than
the window are used whole, otherwise each sliding window contributes its
minimum hash (leftmost on ties), appended only when it differs from the
previously appended one; fingerprint similarity is the Jaccard similarity of
the two fingerprint sets and 0 when either set is empty. -/
theorem c6_winnowing (hashes : List ℕ) (w : ℕ) (_hw : 1 ≤ w) :
    winnow hashes w = winnowSpec hashes w ∧
    (hashes.length < w → winnow hashes w = hashes) ∧
    ∀ (hash : Str → ℕ) (cfg : Config) (c1 c2 : Str) (k : ℕ),
      calculate_moss_similarity hash cfg c1 c2 k w =
        some (jaccardSpec (winnow (get_kgram_hashes hash (preprocess_cpp cfg c1) k) w).toFinset
          (winnow (get_kgram_hashes hash (preprocess_cpp cfg c2) k) w).toFinset) := by
  refine ⟨winnow_eq_winnowSpec hashes w, ?_, ?_⟩
  · intro hlen
    rw [winnow, if_pos hlen]
  · intro hash cfg c1 c2 k
    exact moss_eq_jaccard hash cfg c1 c2 k w

/-- Witness for C6 at a concrete hash list and window size. -/
theorem c6_winnowing_witness :
    winnow [5, 3, 4, 1, 2] 2 = winnowSpec [5, 3, 4, 1, 2] 2 ∧
    winnow [7] 2 = [7] ∧
    calculate_moss_similarity md5Model defaultConfig (str "a b c d e") (str "a b c d e") 5 2 =
      some (jaccardSpec
        (winnow (get_kgram_hashes md5Model (preprocess_cpp defaultConfig (str "a b c d e")) 5) 2).toFinset
        (winnow (get_kgram_hashes md5Model (preprocess_cpp defaultConfig (str "a b c d e")) 5) 2).toFinset) :=
  ⟨(c6_winnowing [5, 3, 4, 1, 2] 2 (by decide)).1,
   (c6_winnowing [7] 2 (by decide)).2.1 (by decide),
   (c6_winnowing [5, 3, 4, 1, 2] 2 (by decide)).2.2 md5Model defaultConfig _ _ 5⟩

/-- C7: an input whose normalized rendering has fewer than `kgramSize` tokens
yields fingerprint similarity 0 regardless of the other input, without error. -/
theorem c7_short_input (hash : Str → ℕ) (cfg : Config) (c1 c2 : Str) (k w : ℕ)
    (hk : (splitWs (preprocess_cpp cfg c1)).length < k) (hw : 1 ≤ w) :
    calculate_moss_similarity hash cfg c1 c2 k w = some 0 := by
  have h1 : get_kgram_hashes hash (preprocess_cpp cfg c1) k = [] := by
    rw [get_kgram_hashes, if_pos hk]
  have h2 : winnow [] w = [] := by
    rw [winnow, if_pos (by simpa using hw)]
  rw [calculate_moss_similarity, h1, h2]
  simp

/-- Witness for C7: the blank input has zero tokens. -/
theorem c7_short_input_witness :
    (splitWs (preprocess_cpp defaultConfig (str ""))).length < 5 ∧ (1 ≤ 10) ∧
    calculate_moss_similarity md5Model defaultConfig (str "") (str "int x = 1 ;") 5 10 = some 0 :=
  ⟨by decide, by decide,
   c7_short_input md5Model defaultConfig (str "") (str "int x = 1 ;") 5 10 (by decide) (by decide)⟩

/-- C9: the top-level entry point always returns a well-formed result — for
every pair of inputs and every configuration it produces a report (the
modelled faults of the pipeline never fire, so the error branch of the
`try/except` is never taken and no exception propagates). -/
theorem c9_no_exception (hash : Str → ℕ) (cfg : Config) (c1 c2 : Str) :
    ∃ r, check_similarity hash cfg c1 c2 = Except.ok r := by
  obtain ⟨q, hq⟩ := moss_isSome hash cfg c1 c2 5 10
  rw [check_similarity, hq]
  exact ⟨_, rfl⟩

theorem ctrlGet_eq_zero (d : List (Str × ℕ)) (h : ∀ p ∈ d, p.2 = 0) (k : Str) : ctrlGet d k = 0 := by
  induction d with
  | nil => rfl
  | cons hd tl ih =>
    rw [ctrlGet, List.lookup]
    by_cases hk : k == hd.1
    · simp only [hk, if_pos]
      have := h hd (List.mem_cons_self _ _)
      simpa using this.symm ▸ rfl
    · simp only [hk, Bool.false_eq_true, if_false]
      exact ih (fun p hp => h p (List.mem_cons_of_mem _ hp))

/-- C10: the control-structure map always contains exactly the six keys
`if, else, for, while, switch, case` with non-negative counts; hence the key
union in `control_similarity` is never empty, the 1.0-for-empty-keys branch is
unreachable, the division is guarded, and the value is 1 when all counts are
zero on both sides. -/
theorem c10_control_profile (code1 code2 : Str) :
    (extract_structure code1).control_structures.map Prod.fst = ctrlKeywords ∧
    (∀ p ∈ (extract_structure code1).control_structures, 0 ≤ p.2) ∧
    ctrlAllKeys (extract_structure code1).control_structures
      (extract_structure code2).control_structures ≠ ∅ ∧
    control_similarity (extract_structure code1).control_structures
        (extract_structure code2).control_structures =
      1 - (if 0 < ctrlMaxPossible (extract_structure code1).control_structures
              (extract_structure code2).control_structures then
        (ctrlDifferences (extract_structure code1).control_structures
            (extract_structure code2).control_structures : ℚ) /
          (ctrlMaxPossible (extract_structure code1).control_structures
            (extract_structure code2).control_structures : ℚ)
        else 0) ∧
    ((∀ p ∈ (extract_structure code1).control_structures, p.2 = 0) →
     (∀ p ∈ (extract_structure code2).control_structures, p.2 = 0) →
     control_similarity (extract_structure code1).control_structures
       (extract_structure code2).control_structures = 1) := by
  have hkeys : ∀ code : Str, (extract_structure code).control_structures.map Prod.fst = ctrlKeywords := by
    intro code
    rw [extract_structure]
    rw [List.map_map]
    exact List.map_id _
  have hmem : str "if" ∈ ((extract_structure code1).control_structures.map Prod.fst ++
      (extract_structure code2).control_structures.map Prod.fst) := by
    rw [hkeys]
    exact List.mem_append_left _ (by decide)
  have hne : ctrlAllKeys (extract_structure code1).control_structures
      (extract_structure code2).control_structures ≠ ∅ :=
    Finset.ne_empty_of_mem (List.mem_toFinset.2 hmem)
  refine ⟨hkeys code1, fun p _ => Nat.zero_le _, hne, ?_, ?_⟩
  · rw [control_similarity, if_neg hne]
  · intro h1 h2
    have hmax : ctrlMaxPossible (extract_structure code1).control_structures
        (extract_structure code2).control_structures = 0 := by
      rw [ctrlMaxPossible]
      refine Finset.sum_eq_zero ?_
      intro k _
      rw [ctrlGet_eq_zero _ h1 k, ctrlGet_eq_zero _ h2 k]
      rfl
    rw [control_similarity, if_neg hne, hmax]
    norm_num

/-- Witness for C10: on two blank inputs every control count is zero and the
control similarity is 1. -/
theorem c10_control_profile_witness :
    control_similarity (extract_structure (str "")).control_structures
      (extract_structure (str "")).control_structures = 1 :=
  (c10_control_profile (str "") (str "")).2.2.2.2
    (by with_unfolding_all decide) (by with_unfolding_all decide)

/-- C8: the aggregator computes `overall = 0.5*moss + 0.3*structure + 0.2*line`
and maps it to a level by inclusive lower bounds evaluated top-down:
0.8 "Very High", 0.6 "High", 0.4 "Moderate", 0.2 "Low", else "Very Low". -/
theorem c8_aggregator (hash : Str → ℕ) (cfg : Config) (c1 c2 : Str) (r : SimilarityReport)
    (h : check_similarity hash cfg c1 c2 = Except.ok r) :
    r.overall_similarity = (5 / 10) * r.moss_similarity + (3 / 10) * r.structure_similarity
      + (2 / 10) * r.line_similarity ∧
    (r.similarity_level = "Very High" ↔ 8 / 10 ≤ r.overall_similarity) ∧
    (r.similarity_level = "High" ↔
      6 / 10 ≤ r.overall_similarity ∧ ¬ (8 / 10 ≤ r.overall_similarity)) ∧
    (r.similarity_level = "Moderate" ↔
      4 / 10 ≤ r.overall_similarity ∧ ¬ (6 / 10 ≤ r.overall_similarity)) ∧
    (r.similarity_level = "Low" ↔
      2 / 10 ≤ r.overall_similarity ∧ ¬ (4 / 10 ≤ r.overall_similarity)) ∧
    (r.similarity_level = "Very Low" ↔ ¬ (2 / 10 ≤ r.overall_similarity)) := by
  obtain ⟨q, hq⟩ := moss_isSome hash cfg c1 c2 5 10
  rw [check_similarity, hq] at h
  simp only [Except.ok.injEq] at h
  subst h
  refine ⟨rfl, ?_, ?_, ?_, ?_, ?_⟩ <;>
  · simp only []
    by_cases h1 : (8 : ℚ) / 10 ≤ (5 / 10) * q + (3 / 10) * calculate_structure_similarity c1 c2
        + (2 / 10) * calculate_line_similarity cfg c1 c2 <;>
    by_cases h2 : (6 : ℚ) / 10 ≤ (5 / 10) * q + (3 / 10) * calculate_structure_similarity c1 c2
        + (2 / 10) * calculate_line_similarity cfg c1 c2 <;>
    by_cases h3 : (4 : ℚ) / 10 ≤ (5 / 10) * q + (3 / 10) * calculate_structure_similarity c1 c2
        + (2 / 10) * calculate_line_similarity cfg c1 c2 <;>
    by_cases h4 : (2 : ℚ) / 10 ≤ (5 / 10) * q + (3 / 10) * calculate_structure_similarity c1 c2
        + (2 / 10) * calculate_line_similarity cfg c1 c2 <;>
    simp [h1, h2, h3, h4] <;> linarith

theorem reportOf_eq_some {e : Except String SimilarityReport} {r : SimilarityReport} :
    reportOf e = some r ↔ e = Except.ok r := by
  cases e <;> simp [reportOf]

/-- Witness for C8 at a concrete pair of inputs. -/
theorem c8_aggregator_witness :
    reportOf (check_similarity md5Model defaultConfig (str "") (str "")) =
      some { similarity_level := "Moderate", overall_similarity := 1/2,
             moss_similarity := 0, structure_similarity := 1, line_similarity := 1,
             suspicious_segments := [] } ∧
    ((1 : ℚ)/2 = (5 / 10) * 0 + (3 / 10) * 1 + (2 / 10) * 1) ∧
    ("Moderate" = "Moderate" ↔ (4 : ℚ) / 10 ≤ 1/2 ∧ ¬ ((6 : ℚ) / 10 ≤ 1/2)) := by
  have hro : reportOf (check_similarity md5Model defaultConfig (str "") (str "")) =
      some { similarity_level := "Moderate", overall_similarity := 1/2,
             moss_similarity := 0, structure_similarity := 1, line_similarity := 1,
             suspicious_segments := [] } := by with_unfolding_all decide
  have h := c8_aggregator md5Model defaultConfig (str "") (str "") _ (reportOf_eq_some.1 hro)
  exact ⟨hro, by simpa using h.1, by simpa using h.2.2.2.1⟩

theorem mem_collapseWsAux {c : Char} :
    ∀ (b : Bool) (s : Str), c ∈ collapseWsAux b s → c = ' ' ∨ (c ∈ s ∧ isWsP c = false) := by
  intro b s
  induction s generalizing b with
  | nil => intro h; simp [collapseWsAux] at h
  | cons hd tl ih =>
    intro h
    rw [collapseWsAux] at h
    by_cases hws : isWsP hd
    · simp only [hws, if_pos] at h
      by_cases hb : b
      · simp only [hb, if_pos] at h
        rcases ih true h with h1 | ⟨h2, h3⟩
        · exact Or.inl h1
        · exact Or.inr ⟨List.mem_cons_of_mem _ h2, h3⟩
      · simp only [hb, if_neg, Bool.false_eq_true] at h
        rcases List.mem_cons.1 h with h1 | h1
        · exact Or.inl h1
        · rcases ih true h1 with h2 | ⟨h2, h3⟩
          · exact Or.inl h2
          · exact Or.inr ⟨List.mem_cons_of_mem _ h2, h3⟩
    · simp only [hws, Bool.false_eq_true, if_neg, if_false] at h
      rcases List.mem_cons.1 h with h1 | h1
      · subst h1
        exact Or.inr ⟨List.mem_cons_self _ _, by simpa using hws⟩
      · rcases ih false h1 with h2 | ⟨h2, h3⟩
        · exact Or.inl h2
        · exact Or.inr ⟨List.mem_cons_of_mem _ h2, h3⟩

theorem mem_stripWsOpsAux {c : Char} :
    ∀ (a : Bool) (p : Str) (s : Str), c ∈ stripWsOpsAux a p s → c ∈ p ∨ c ∈ s := by
  intro a p s
  induction s generalizing a p with
  | nil =>
    intro h
    rw [stripWsOpsAux] at h
    by_cases ha : a
    · simp [ha] at h
    · simp only [ha, Bool.false_eq_true, if_neg, if_false] at h
      exact Or.inl h
  | cons hd tl ih =>
    intro h
    rw [stripWsOpsAux] at h
    by_cases hws : isWsP hd
    · simp only [hws, if_pos] at h
      rcases ih a (p ++ [hd]) h with h1 | h1
      · rcases List.mem_append.1 h1 with h2 | h2
        · exact Or.inl h2
        · simp at h2
          exact Or.inr (h2 ▸ List.mem_cons_self _ _)
      · exact Or.inr (List.mem_cons_of_mem _ h1)
    · by_cases hop : isOpP hd
      · simp only [hws, hop, Bool.false_eq_true, if_neg, if_pos, if_false] at h
        rcases List.mem_cons.1 h with h1 | h1
        · exact Or.inr (h1 ▸ List.mem_cons_self _ _)
        · rcases ih true [] h1 with h2 | h2
          · simp at h2
          · exact Or.inr (List.mem_cons_of_mem _ h2)
      · simp only [hws, hop, Bool.false_eq_true, if_neg, if_false] at h
        rcases List.mem_append.1 h with h1 | h1
        · by_cases ha : a
          · simp [ha] at h1
          · simp only [ha, Bool.false_eq_true, if_neg, if_false] at h1
            exact Or.inl h1
        · rcases List.mem_cons.1 h1 with h2 | h2
          · exact Or.inr (h2 ▸ List.mem_cons_self _ _)
          · rcases ih false [] h2 with h3 | h3
            · simp at h3
            · exact Or.inr (List.mem_cons_of_mem _ h3)

theorem mem_intersperse {α : Type} {x sep : α} :
    ∀ {ts : List α}, x ∈ ts.intersperse sep → x = sep ∨ x ∈ ts
  | [], h => by simp [List.intersperse] at h
  | [a], h => by
    simp only [List.intersperse, List.mem_singleton] at h
    exact Or.inr (by simp [h])
  | a :: b :: t, h => by
    rw [List.intersperse_cons_cons] at h
    rcases List.mem_cons.1 h with h1 | h1
    · exact Or.inr (h1 ▸ List.mem_cons_self _ _)
    · rcases List.mem_cons.1 h1 with h2 | h2
      · exact Or.inl h2
      · rcases mem_intersperse h2 with h3 | h3
        · exact Or.inl h3
        · exact Or.inr (List.mem_cons_of_mem _ h3)

theorem mem_natToStrFuel {c : Char} :
    ∀ (f n : ℕ), c ∈ natToStrFuel f n → c ∈ str "0123456789" := by
  intro f
  induction f with
  | zero => intro n h; simp [natToStrFuel] at h
  | succ f ih =>
    intro n h
    rw [natToStrFuel] at h
    have hdig : ∀ m : ℕ, digitChar m ∈ str "0123456789" := by
      intro m
      rw [digitChar]
      split_ifs <;> decide
    by_cases hn : n < 10
    · simp only [hn, if_pos, List.mem_singleton] at h
      exact h ▸ hdig n
    · simp only [hn, if_neg, if_false] at h
      rcases List.mem_append.1 h with h1 | h1
      · exact ih _ h1
      · simp only [List.mem_singleton] at h1
        exact h1 ▸ hdig _

theorem mem_varName {c : Char} (n : ℕ) (h : c ∈ varName n) :
    c ∈ str "VAR_" ∨ (c ∈ str "0123456789") := by
  rw [varName] at h
  rcases List.mem_append.1 h with h1 | h1
  · exact Or.inl h1
  · exact Or.inr (mem_natToStrFuel _ _ h1)

theorem skipStringLit_suffix (q : Char) : ∀ (s : Str), (skipStringLit q s).IsSuffix s
  | [] => by simp [skipStringLit]
  | [c] => by
    rw [skipStringLit]
    split_ifs <;> simp
  | c :: c2 :: cs2 => by
    rw [skipStringLit]
    split_ifs with h1 h2
    · exact List.suffix_cons _ _
    · exact (skipStringLit_suffix q cs2).trans
        ((List.suffix_cons _ _).trans (List.suffix_cons _ _))
    · exact (skipStringLit_suffix q (c2 :: cs2)).trans (List.suffix_cons _ _)

theorem assocFind_mem {m : List (Str × Str)} {w v : Str} (h : assocFind m w = some v) :
    ∃ k, (k, v) ∈ m := by
  induction m with
  | nil => simp [assocFind] at h
  | cons hd tl ih =>
    rw [assocFind] at h
    by_cases hk : hd.1 = w
    · simp only [hk, if_pos] at h
      obtain rfl : hd.2 = v := Option.some.inj h
      exact ⟨hd.1, List.mem_cons_self _ _⟩
    · simp only [hk, if_neg, if_false] at h
      rcases ih h with ⟨k, hkm⟩
      exact ⟨k, List.mem_cons_of_mem _ hkm⟩

theorem mem_str_var {d : Char} (h : d ∈ str "VAR_") : d ∈ str "NUMSTRVAR_" := by
  have h2 : d = 'V' ∨ d = 'A' ∨ d = 'R' ∨ d = '_' := by simpa [str] using h
  rcases h2 with rfl | rfl | rfl | rfl <;> decide

theorem mem_tokenizeFuel {c : Char} :
    ∀ (fuel : ℕ) (s : Str) (idmap : List (Str × Str)) (counter : ℕ) (t : Str),
      t ∈ tokenizeFuel fuel s idmap counter → c ∈ t →
      (∀ kv ∈ idmap, ∀ d ∈ kv.2, d ∈ str "NUMSTRVAR_" ∨ (d ∈ str "0123456789")) →
      c ∈ s ∨ c ∈ str "NUMSTRVAR_" ∨ (c ∈ str "0123456789") := by
  intro fuel
  induction fuel with
  | zero => intro s idmap counter t ht; simp [tokenizeFuel] at ht
  | succ fuel ih =>
    intro s idmap counter t ht hc hmap
    match s with
    | [] => simp [tokenizeFuel] at ht
    | hd :: tl =>
      rw [tokenizeFuel] at ht
      by_cases h1 : isIdentStart hd
      · simp only [h1, if_pos] at ht
        by_cases h2 : (hd :: tl.takeWhile isIdentChar) ∈ cppKeywords
        · simp only [h2, if_pos] at ht
          rcases List.mem_cons.1 ht with ht1 | ht1
          · subst ht1
            rcases List.mem_cons.1 hc with hc1 | hc1
            · exact Or.inl (hc1 ▸ List.mem_cons_self _ _)
            · exact Or.inl (List.mem_cons_of_mem _ ((List.takeWhile_prefix _).subset hc1))
          · rcases ih _ idmap counter t ht1 hc hmap with h3 | h3
            · exact Or.inl (List.mem_cons_of_mem _ ((List.dropWhile_suffix _).subset h3))
            · exact Or.inr h3
        · simp only [h2, if_neg, if_false] at ht
          rcases hfind : assocFind idmap (hd :: tl.takeWhile isIdentChar) with _ | v
          · rw [hfind] at ht
            rcases List.mem_cons.1 ht with ht1 | ht1
            · subst ht1
              rcases mem_varName _ hc with h3 | h3
              · exact Or.inr (Or.inl (mem_str_var h3))
              · exact Or.inr (Or.inr h3)
            · have hmap2 : ∀ kv ∈ ((hd :: tl.takeWhile isIdentChar, varName counter) :: idmap),
                  ∀ d ∈ kv.2, d ∈ str "NUMSTRVAR_" ∨ (d ∈ str "0123456789") := by
                intro kv hkv d hd2
                rcases List.mem_cons.1 hkv with hkv1 | hkv1
                · subst hkv1
                  rcases mem_varName _ hd2 with h4 | h4
                  · exact Or.inl (mem_str_var h4)
                  · exact Or.inr h4
                · exact hmap kv hkv1 d hd2
              rcases ih _ _ (counter + 1) t ht1 hc hmap2 with h3 | h3
              · exact Or.inl (List.mem_cons_of_mem _ ((List.dropWhile_suffix _).subset h3))
              · exact Or.inr h3
          · rw [hfind] at ht
            rcases List.mem_cons.1 ht with ht1 | ht1
            · subst ht1
              rcases assocFind_mem hfind with ⟨k, hkm⟩
              exact Or.inr (hmap (k, t) hkm c hc)
            · rcases ih _ idmap counter t ht1 hc hmap with h3 | h3
              · exact Or.inl (List.mem_cons_of_mem _ ((List.dropWhile_suffix _).subset h3))
              · exact Or.inr h3
      · by_cases h2 : hd.isDigit
        · simp only [h1, h2, Bool.false_eq_true, if_neg, if_pos, if_false] at ht
          rcases List.mem_cons.1 ht with ht1 | ht1
          · subst ht1
            have h3 : c = 'N' ∨ c = 'U' ∨ c = 'M' := by simpa [numTok, str] using hc
            rcases h3 with rfl | rfl | rfl <;> exact Or.inr (Or.inl (by decide))
          · rcases ih _ idmap counter t ht1 hc hmap with h3 | h3
            · exact Or.inl (List.mem_cons_of_mem _ ((List.dropWhile_suffix _).subset h3))
            · exact Or.inr h3
        · by_cases h3 : hd = quoteD ∨ hd = quoteS
          · simp only [h1, h2, h3, Bool.false_eq_true, if_neg, if_pos, if_false] at ht
            rcases List.mem_cons.1 ht with ht1 | ht1
            · subst ht1
              have h4 : c = 'S' ∨ c = 'T' ∨ c = 'R' := by simpa [strTok, str] using hc
              rcases h4 with rfl | rfl | rfl <;> exact Or.inr (Or.inl (by decide))
            · rcases ih _ idmap counter t ht1 hc hmap with h4 | h4
              · exact Or.inl (List.mem_cons_of_mem _ ((skipStringLit_suffix _ _).subset h4))
              · exact Or.inr h4
          · simp only [h1, h2, h3, Bool.false_eq_true, if_neg, if_false] at ht
            rcases List.mem_cons.1 ht with ht1 | ht1
            · subst ht1
              simp only [List.mem_singleton] at hc
              exact Or.inl (hc ▸ List.mem_cons_self _ _)
            · rcases ih _ idmap counter t ht1 hc hmap with h4 | h4
              · exact Or.inl (List.mem_cons_of_mem _ h4)
              · exact Or.inr h4

theorem mem_renderJoin {c : Char} :
    ∀ (ts : List Str), c ∈ renderJoin ts → c = ' ' ∨ ∃ t ∈ ts, c ∈ t := by
  intro ts h
  rw [renderJoin] at h
  rcases List.mem_flatten.1 (by simpa [List.intercalate] using h) with ⟨l, hl, hcl⟩
  rcases mem_intersperse hl with h1 | h1
  · subst h1
    simp only [List.mem_singleton] at hcl
    exact Or.inl hcl
  · exact Or.inr ⟨l, h1, hcl⟩

theorem preprocess_default_no_newline (code : Str) :
    Char.ofNat 10 ∉ preprocess_cpp defaultConfig code := by
  intro h
  rw [preprocess_cpp] at h
  simp only [defaultConfig, if_pos] at h
  rcases mem_renderJoin _ h with h1 | ⟨t, ht, hct⟩
  · exact absurd h1 (by decide)
  · have h2 := mem_tokenizeFuel _ _ [] 0 t ht hct (by simp)
    rcases h2 with h3 | h3 | h3
    · rw [whitespacePhase] at h3
      simp only [if_pos] at h3
      rcases mem_stripWsOpsAux _ _ _ h3 with h4 | h4
      · simp at h4
      · rcases mem_collapseWsAux _ _ h4 with h5 | ⟨_, h6⟩
        · exact absurd h5 (by decide)
        · exact absurd h6 (by decide)
    · exact absurd h3 (by decide)
    · exact absurd h3 (by decide)

theorem splitNlAux_no_newline {s : Str} (h : Char.ofNat 10 ∉ s) :
    ∀ (cur : Str), splitNlAux cur s = [cur.reverse ++ s] := by
  induction s with
  | nil => intro cur; simp [splitNlAux]
  | cons hd tl ih =>
    intro cur
    rw [splitNlAux]
    have hne : ¬ hd = Char.ofNat 10 := fun he => h (he ▸ List.mem_cons_self _ _)
    rw [if_neg hne]
    rw [ih (fun hm => h (List.mem_cons_of_mem _ hm))]
    simp

theorem splitNl_no_newline {s : Str} (h : Char.ofNat 10 ∉ s) : splitNl s = [s] := by
  rw [splitNl, splitNlAux_no_newline h]
  simp

theorem commonPrefixLen_singleton {α : Type} [DecidableEq α] (x y : α) :
    commonPrefixLen [x] [y] = if x = y then 1 else 0 := by
  by_cases h : x = y <;> simp [commonPrefixLen, h]

theorem findLongestMatch_singleton {α : Type} [DecidableEq α] (x y : α) :
    findLongestMatch [x] [y] = if x = y then (0, 0, 1) else (0, 0, 0) := by
  by_cases h : x = y <;>
  simp [findLongestMatch, List.range_succ, commonPrefixLen, h]

theorem findLongestMatch_nil {α : Type} [DecidableEq α] :
    findLongestMatch ([] : List α) [] = (0, 0, 0) := rfl

theorem matchingBlocksFuel_nil {α : Type} [DecidableEq α] :
    ∀ (f ai bi : ℕ), matchingBlocksFuel f ([] : List α) [] ai bi = []
  | 0, _, _ => rfl
  | f + 1, ai, bi => by
    rw [matchingBlocksFuel, findLongestMatch_nil]
    simp

theorem getMatchingBlocks_singleton {α : Type} [DecidableEq α] (x y : α) :
    getMatchingBlocks [x] [y] = if x = y then [(0, 0, 1), (1, 1, 0)] else [(1, 1, 0)] := by
  by_cases h : x = y
  · subst h
    rw [getMatchingBlocks, if_pos rfl]
    have h1 : findLongestMatch [x] [x] = (0, 0, 1) := by
      rw [findLongestMatch_singleton, if_pos rfl]
    rw [show ([x] : List α).length + ([x] : List α).length + 1 = 3 from rfl]
    rw [matchingBlocksFuel, h1]
    simp only [List.take_zero, List.drop_succ_cons, List.drop_nil, List.drop_zero]
    norm_num
    rw [matchingBlocksFuel_nil, matchingBlocksFuel_nil]
    simp [mergeAdjacent]
  · rw [getMatchingBlocks, if_neg h]
    have h1 : findLongestMatch [x] [y] = (0, 0, 0) := by
      rw [findLongestMatch_singleton, if_neg h]
    rw [show ([x] : List α).length + ([y] : List α).length + 1 = 3 from rfl]
    rw [matchingBlocksFuel, h1]
    simp [mergeAdjacent]

theorem matcherRatio_singleton {α : Type} [DecidableEq α] (x y : α) :
    matcherRatio [x] [y] = if x = y then 1 else 0 := by
  rw [matcherRatio, getMatchingBlocks_singleton]
  by_cases h : x = y
  · rw [if_pos h, if_pos h]
    norm_num
  · rw [if_neg h, if_neg h]
    norm_num

/-- C2: under the default configuration `identify_similar_segments` returns
the empty list for every pair of inputs (whitespace collapsing removes every
newline before the line split, so both line lists are singletons and no
matching block can reach the minimum length of 3) — in particular the spec
scenario of a reordered four-line statement block yields no segment at all. -/
theorem c2_segments_always_empty (code1 code2 : Str) :
    identify_similar_segments defaultConfig code1 code2 3 = [] := by
  rw [identify_similar_segments]
  rw [splitNl_no_newline (preprocess_default_no_newline code1),
      splitNl_no_newline (preprocess_default_no_newline code2)]
  rw [getMatchingBlocks_singleton]
  by_cases h : preprocess_cpp defaultConfig code1 = preprocess_cpp defaultConfig code2
  · rw [if_pos h]
    rfl
  · rw [if_neg h]
    rfl

theorem count_similarity_self (l : List Str) : count_similarity l l = 1 := by
  by_cases hl : l = []
  · simp [count_similarity, hl]
  · rw [count_similarity, if_neg (by simp [hl]), if_neg (by simp [hl])]
    have heq : ((l ++ l).toFinset.sum (fun s => Nat.min (l.count s) (l.count s))) =
        ((l ++ l).toFinset.sum (fun s => Nat.max (l.count s) (l.count s))) := by
      refine Finset.sum_congr rfl ?_
      intro s _
      simp [Nat.min_def, Nat.max_def]
    have hpos : 0 < (l ++ l).toFinset.sum (fun s => Nat.max (l.count s) (l.count s)) := by
      rcases List.exists_mem_of_ne_nil l hl with ⟨x, hx⟩
      have hxk : x ∈ (l ++ l).toFinset := List.mem_toFinset.2 (List.mem_append_left _ hx)
      have hc : l.count x ≠ 0 := fun h0 => (List.count_eq_zero.1 h0) hx
      have h2 : Nat.max (l.count x) (l.count x) ≤
          (l ++ l).toFinset.sum (fun s => Nat.max (l.count s) (l.count s)) :=
        @Finset.single_le_sum Str ℕ _ (fun s => Nat.max (l.count s) (l.count s))
          ((l ++ l).toFinset) (fun i _ => Nat.zero_le _) x hxk
      have h3 : Nat.max (l.count x) (l.count x) = l.count x := by simp [Nat.max_def]
      rw [h3] at h2
      omega
    rw [if_pos hpos, heq]
    rw [div_self (by exact_mod_cast hpos.ne')]

theorem control_similarity_self (d : List (Str × ℕ)) : control_similarity d d = 1 := by
  by_cases hk : ctrlAllKeys d d = ∅
  · rw [control_similarity, if_pos hk]
  · rw [control_similarity, if_neg hk]
    have hdiff : ctrlDifferences d d = 0 := by
      rw [ctrlDifferences]
      refine Finset.sum_eq_zero ?_
      intro k _
      simp [Nat.min_def, Nat.max_def]
    rw [hdiff]
    split_ifs <;> simp

theorem structure_similarity_self (code : Str) : calculate_structure_similarity code code = 1 := by
  rw [calculate_structure_similarity, count_similarity_self, count_similarity_self,
    control_similarity_self]
  norm_num

theorem winnow_ne_nil {hashes : List ℕ} {w : ℕ} (hh : hashes ≠ []) (_hw : 1 ≤ w) :
    winnow hashes w ≠ [] := by
  rw [winnow]
  by_cases hlen : hashes.length < w
  · rw [if_pos hlen]
    exact hh
  · rw [if_neg hlen]
    have hfold : ∀ (l : List (ℕ × List ℕ)) (acc : List (ℕ × ℕ)), acc ≠ [] ∨ l ≠ [] →
        List.foldl (fun acc iw =>
          let minHash := listMin iw.2
          let minPos := iw.2.indexOf minHash + iw.1
          match acc.getLast? with
          | none => acc ++ [(minHash, minPos)]
          | some last => if last.1 ≠ minHash then acc ++ [(minHash, minPos)] else acc) acc l ≠ [] := by
      intro l
      induction l with
      | nil =>
        intro acc h
        rcases h with h | h
        · exact h
        · simp at h
      | cons hd tl ih =>
        intro acc h
        rw [List.foldl_cons]
        refine ih _ (Or.inl ?_)
        cases hacc : acc.getLast? with
        | none => simp [hacc]
        | some last =>
          simp only [hacc]
          by_cases hm : last.1 = listMin hd.2
          · simp only [hm, ne_eq, not_true_eq_false, if_neg, if_false]
            intro habs
            rw [habs] at hacc
            simp at hacc
          · simp [hm]
    have hwin : ((List.range (hashes.length - w + 1)).map
        (fun i => (hashes.drop i).take w)) ≠ [] := by
      simp [List.range_eq_nil]
    have hzip : (List.zip (List.range ((List.range (hashes.length - w + 1)).map
        (fun i => (hashes.drop i).take w)).length)
        ((List.range (hashes.length - w + 1)).map (fun i => (hashes.drop i).take w))) ≠ [] := by
      intro habs
      have := congrArg List.length habs
      simp only [List.length_zip, List.length_range, List.length_nil, Nat.min_self] at this
      exact hwin (List.eq_nil_of_length_eq_zero this)
    intro habs
    have := congrArg List.length habs
    simp only [List.length_map] at this
    exact hfold _ [] (Or.inr hzip) (List.eq_nil_of_length_eq_zero (by simpa using this))

theorem moss_self_one (hash : Str → ℕ) (cfg : Config) (code : Str) (k w : ℕ)
    (hk : k ≤ (splitWs (preprocess_cpp cfg code)).length) (hw : 1 ≤ w) :
    calculate_moss_similarity hash cfg code code k w = some 1 := by
  have hne : get_kgram_hashes hash (preprocess_cpp cfg code) k ≠ [] := by
    rw [get_kgram_hashes, if_neg (by omega)]
    simp only [ne_eq, List.map_eq_nil_iff, List.range_eq_nil]
    omega
  have hwn : winnow (get_kgram_hashes hash (preprocess_cpp cfg code) k) w ≠ [] :=
    winnow_ne_nil hne hw
  have hfs : (winnow (get_kgram_hashes hash (preprocess_cpp cfg code) k) w).toFinset ≠ ∅ := by
    intro habs
    rcases List.exists_mem_of_ne_nil _ hwn with ⟨x, hx⟩
    exact absurd (habs ▸ List.mem_toFinset.2 hx) (Finset.not_mem_empty x)
  rw [calculate_moss_similarity]
  rw [if_neg (by simp [hfs])]
  rw [Finset.inter_self, Finset.union_self]
  have hcard : ((winnow (get_kgram_hashes hash (preprocess_cpp cfg code) k) w).toFinset.card : ℚ) ≠ 0 := by
    exact_mod_cast Finset.card_ne_zero.2 (Finset.nonempty_iff_ne_empty.2 hfs)
  rw [if_neg (by exact_mod_cast hcard)]
  rw [div_self hcard]

/-- C1 (amended): for identical inputs whose normalized rendering has at least
`kgramSize` (5) whitespace tokens, `check_similarity` under the default
configuration reports fingerprint, structural and line sub-scores all 1.0, an
overall score of 1.0 and the level "Very High". -/
theorem c1_identical_inputs (hash : Str → ℕ) (code : Str)
    (h5 : 5 ≤ (splitWs (preprocess_cpp defaultConfig code)).length) :
    (reportOf (check_similarity hash defaultConfig code code)).map
      (fun r => (r.moss_similarity, r.structure_similarity, r.line_similarity,
        r.overall_similarity, r.similarity_level)) =
      some (1, 1, 1, 1, "Very High") := by
  have hm := moss_self_one hash defaultConfig code 5 10 h5 (by norm_num)
  have hs := structure_similarity_self code
  have hl : calculate_line_similarity defaultConfig code code = 1 := by
    rw [calculate_line_similarity, splitNl_no_newline (preprocess_default_no_newline code),
      matcherRatio_singleton, if_pos rfl]
  rw [check_similarity, hm]
  simp only [reportOf, Option.map, hs, hl]
  norm_num

/-- Witness for C1 at a concrete five-token input. -/
theorem c1_identical_inputs_witness :
    5 ≤ (splitWs (preprocess_cpp defaultConfig (str "a b c d e"))).length ∧
    (reportOf (check_similarity md5Model defaultConfig (str "a b c d e") (str "a b c d e"))).map
      (fun r => (r.moss_similarity, r.structure_similarity, r.line_similarity,
        r.overall_similarity, r.similarity_level)) =
      some (1, 1, 1, 1, "Very High") :=
  ⟨by with_unfolding_all decide,
   c1_identical_inputs md5Model (str "a b c d e") (by with_unfolding_all decide)⟩

/-- Counterexample to C1 as stated: two identical blank inputs give a
fingerprint sub-score of 0, an overall score of 0.5 and the level "Moderate". -/
theorem c1_counterexample :
    (reportOf (check_similarity md5Model defaultConfig (str "") (str ""))).map
      (fun r => (r.moss_similarity, r.structure_similarity, r.line_similarity,
        r.overall_similarity, r.similarity_level)) =
      some (0, 1, 1, 1 / 2, "Moderate") := by
  with_unfolding_all decide

theorem moss_comm (hash : Str → ℕ) (cfg : Config) (c1 c2 : Str) (k w : ℕ) :
    calculate_moss_similarity hash cfg c1 c2 k w = calculate_moss_similarity hash cfg c2 c1 k w := by
  simp only [calculate_moss_similarity]
  by_cases h : (winnow (get_kgram_hashes hash (preprocess_cpp cfg c1) k) w).toFinset = ∅ ∨
      (winnow (get_kgram_hashes hash (preprocess_cpp cfg c2) k) w).toFinset = ∅
  · rw [if_pos h, if_pos (Or.symm h)]
  · rw [if_neg h, if_neg (fun hc => h (Or.symm hc))]
    rw [Finset.inter_comm, Finset.union_comm]

theorem count_similarity_comm (l1 l2 : List Str) :
    count_similarity l1 l2 = count_similarity l2 l1 := by
  by_cases h1 : l1 = [] <;> by_cases h2 : l2 = []
  · simp [count_similarity, h1, h2]
  · simp [count_similarity, h1, h2]
  · simp [count_similarity, h1, h2]
  · rw [count_similarity, count_similarity]
    rw [if_neg (show ¬ (l1 = [] ∧ l2 = []) by simp [h1]),
        if_neg (show ¬ (l1 = [] ∨ l2 = []) by simp [h1, h2]),
        if_neg (show ¬ (l2 = [] ∧ l1 = []) by simp [h2]),
        if_neg (show ¬ (l2 = [] ∨ l1 = []) by simp [h1, h2])]
    have hkeys : (l1 ++ l2).toFinset = (l2 ++ l1).toFinset := by
      simp [List.toFinset_append, Finset.union_comm]
    have hcommon : (l1 ++ l2).toFinset.sum (fun s => Nat.min (l1.count s) (l2.count s)) =
        (l2 ++ l1).toFinset.sum (fun s => Nat.min (l2.count s) (l1.count s)) := by
      rw [hkeys]
      exact Finset.sum_congr rfl (fun s _ => Nat.min_comm _ _)
    have htotal : (l1 ++ l2).toFinset.sum (fun s => Nat.max (l1.count s) (l2.count s)) =
        (l2 ++ l1).toFinset.sum (fun s => Nat.max (l2.count s) (l1.count s)) := by
      rw [hkeys]
      exact Finset.sum_congr rfl (fun s _ => Nat.max_comm _ _)
    simp only [hcommon, htotal]

theorem control_similarity_comm (d1 d2 : List (Str × ℕ)) :
    control_similarity d1 d2 = control_similarity d2 d1 := by
  have hkeys : ctrlAllKeys d1 d2 = ctrlAllKeys d2 d1 := by
    simp [ctrlAllKeys, List.toFinset_append, Finset.union_comm]
  have hdiff : ctrlDifferences d1 d2 = ctrlDifferences d2 d1 := by
    rw [ctrlDifferences, ctrlDifferences, hkeys]
    refine Finset.sum_congr rfl (fun k _ => ?_)
    simp only [Nat.max_def, Nat.min_def]
    split_ifs <;> omega
  have hmax : ctrlMaxPossible d1 d2 = ctrlMaxPossible d2 d1 := by
    rw [ctrlMaxPossible, ctrlMaxPossible, hkeys]
    refine Finset.sum_congr rfl (fun k _ => ?_)
    simp only [Nat.max_def]
    split_ifs <;> omega
  rw [control_similarity, control_similarity, hkeys, hdiff, hmax]

theorem structure_similarity_comm (c1 c2 : Str) :
    calculate_structure_similarity c1 c2 = calculate_structure_similarity c2 c1 := by
  rw [calculate_structure_similarity, calculate_structure_similarity,
    count_similarity_comm, count_similarity_comm (extract_structure c1).classes,
    control_similarity_comm]

theorem line_similarity_default_comm (c1 c2 : Str) :
    calculate_line_similarity defaultConfig c1 c2 = calculate_line_similarity defaultConfig c2 c1 := by
  rw [calculate_line_similarity, calculate_line_similarity,
    splitNl_no_newline (preprocess_default_no_newline c1),
    splitNl_no_newline (preprocess_default_no_newline c2),
    matcherRatio_singleton, matcherRatio_singleton]
  by_cases h : preprocess_cpp defaultConfig c1 = preprocess_cpp defaultConfig c2
  · rw [if_pos h, if_pos h.symm]
  · rw [if_neg h, if_neg (fun he => h he.symm)]

/-- C5 (amended): under the default configuration the comparison is symmetric —
swapping the two inputs leaves the fingerprint, structural and line sub-scores
and the overall score unchanged. -/
theorem c5_symmetric_default (hash : Str → ℕ) (c1 c2 : Str) :
    (reportOf (check_similarity hash defaultConfig c1 c2)).map
      (fun r => (r.moss_similarity, r.structure_similarity, r.line_similarity,
        r.overall_similarity)) =
    (reportOf (check_similarity hash defaultConfig c2 c1)).map
      (fun r => (r.moss_similarity, r.structure_similarity, r.line_similarity,
        r.overall_similarity)) := by
  obtain ⟨q, hq⟩ := moss_isSome hash defaultConfig c1 c2 5 10
  have hq2 : calculate_moss_similarity hash defaultConfig c2 c1 5 10 = some q :=
    (moss_comm hash defaultConfig c2 c1 5 10).trans hq
  rw [check_similarity, check_similarity, hq, hq2]
  simp only [reportOf, Option.map]
  rw [structure_similarity_comm c2 c1, line_similarity_default_comm c2 c1]

/-- Counterexample to C5 as stated: with all three normalization flags off,
these two inputs give line sub-scores 2/3 and 1/3 depending on the order. -/
theorem c5_counterexample :
    (reportOf (check_similarity md5Model ⟨false, false, false⟩
        (str "1\n2\n9\n3\n4") (str "3\n4\n1\n2\n8\n3\n4"))).map
      (fun r => r.line_similarity) ≠
    (reportOf (check_similarity md5Model ⟨false, false, false⟩
        (str "3\n4\n1\n2\n8\n3\n4") (str "1\n2\n9\n3\n4"))).map
      (fun r => r.line_similarity) := by
  with_unfolding_all decide

/-- C3 (amended): when `normalize_identifiers` is false the Normalizer skips
tokenization entirely — the output is just the comment phase followed by the
whitespace phase, with identifiers and literals kept verbatim. -/
theorem c3_no_normalize (cfg : Config) (code : Str) (h : cfg.normalize_identifiers = false) :
    preprocess_cpp cfg code = whitespacePhase cfg (commentPhase cfg code) := by
  rw [preprocess_cpp, h]
  simp

/-- Witness for C3 at a concrete configuration and input. -/
theorem c3_no_normalize_witness :
    (Config.mk true true false).normalize_identifiers = false ∧
    preprocess_cpp ⟨true, true, false⟩ (str "42") =
      whitespacePhase ⟨true, true, false⟩ (commentPhase ⟨true, true, false⟩ (str "42")) :=
  ⟨rfl, c3_no_normalize ⟨true, true, false⟩ (str "42") rfl⟩

/-- Counterexample to C3 as stated: with identifier normalization off, the
numeric literal `42` stays literal — the output is not the rejoined marker
token sequence (`NUM`) the claim describes. -/
theorem c3_counterexample :
    preprocess_cpp ⟨true, true, false⟩ (str "42") ≠ renderJoin (tokenizeKeepIds (str "42")) := by
  with_unfolding_all decide

/-- Counterexample to C4 as stated: normalization is not idempotent — the
marker token `NUM` produced for `42` is itself re-canonicalized to `VAR_0` on
a second pass. -/
theorem c4_counterexample :
    preprocess_cpp defaultConfig (preprocess_cpp defaultConfig (str "42")) ≠
      preprocess_cpp defaultConfig (str "42") := by
  with_unfolding_all decide

theorem isOpP_class {c : Char} (h : isOpP c = true) :
    isIdentChar c = false ∧ isIdentStart c = false ∧ c.isDigit = false ∧
    c ≠ quoteD ∧ c ≠ quoteS ∧ isWsP c = false := by
  simp only [isOpP, decide_eq_true_eq] at h
  rcases h with rfl | rfl | rfl | rfl | rfl | rfl | rfl | rfl | rfl | rfl |
    rfl | rfl | rfl | rfl | rfl | rfl | rfl | rfl | rfl <;> exact ⟨by decide, by decide, by decide, by decide, by decide, by decide⟩

theorem mem_digits_ident {c : Char} (h : c ∈ str "0123456789") :
    isIdentChar c = true ∧ isWsP c = false ∧ isOpP c = false := by
  have h2 : c = '0' ∨ c = '1' ∨ c = '2' ∨ c = '3' ∨ c = '4' ∨ c = '5' ∨ c = '6' ∨
      c = '7' ∨ c = '8' ∨ c = '9' := by simpa [str] using h
  rcases h2 with rfl | rfl | rfl | rfl | rfl | rfl | rfl | rfl | rfl | rfl <;>
    exact ⟨by decide, by decide, by decide⟩

theorem digitChar_toNat {m : ℕ} (hm : m < 10) : (digitChar m).toNat - 48 = m := by
  interval_cases m <;> decide

theorem digitsVal_natToStrFuel : ∀ (f n : ℕ), n < f → digitsVal (natToStrFuel f n) = n := by
  intro f
  induction f with
  | zero => intro n h; omega
  | succ f ih =>
    intro n h
    rw [natToStrFuel]
    by_cases hn : n < 10
    · rw [if_pos hn, digitsVal]
      simp [List.foldl, digitChar_toNat hn]
    · rw [if_neg hn, digitsVal, List.foldl_append]
      have h1 : List.foldl (fun a c => 10 * a + (c.toNat - 48)) 0 (natToStrFuel f (n / 10)) = n / 10 := by
        have := ih (n / 10) (by omega)
        simpa [digitsVal] using this
      rw [h1]
      have h2 := digitChar_toNat (Nat.mod_lt n (show 0 < 10 by norm_num))
      simp only [List.foldl]
      omega

theorem digitsVal_natToStr (n : ℕ) : digitsVal (natToStr n) = n :=
  digitsVal_natToStrFuel (n + 1) n (Nat.lt_succ_self n)

theorem varNameIndex_varName (i : ℕ) : varNameIndex (varName i) = some i := by
  have h : varName i = 'V' :: 'A' :: 'R' :: '_' :: natToStr i := rfl
  rw [h, varNameIndex, digitsVal_natToStr, if_pos rfl]

theorem varName_inj {i j : ℕ} (h : varName i = varName j) : i = j := by
  have h1 := varNameIndex_varName i
  rw [h, varNameIndex_varName] at h1
  exact (Option.some.inj h1).symm

theorem varNameIndex_eq_some : ∀ {t : Str} {i : ℕ}, varNameIndex t = some i → t = varName i := by
  intro t i h
  unfold varNameIndex at h
  split at h
  · next ds =>
    split at h
    · next hds =>
      obtain rfl := Option.some.inj h
      show _ = str "VAR_" ++ natToStr (digitsVal ds)
      rw [hds]
      rfl
    · simp at h
  · simp at h

theorem isWordTok_varName (i : ℕ) : isWordTok (varName i) = true := by
  rw [isWordTok.eq_def]
  have h : varName i = 'V' :: 'A' :: 'R' :: '_' :: natToStr i := rfl
  rw [h]
  simp only [Bool.and_eq_true]
  refine ⟨by decide, ?_⟩
  rw [List.all_eq_true]
  intro c hc
  have h2 : c = 'V' ∨ c = 'A' ∨ c = 'R' ∨ c = '_' ∨ c ∈ natToStr i := by
    simpa using hc
  rcases h2 with rfl | rfl | rfl | rfl | h3
  · decide
  · decide
  · decide
  · decide
  · exact (mem_digits_ident (mem_natToStrFuel _ _ h3)).1

theorem keywords_isWordTok : ∀ kw ∈ cppKeywords, isWordTok kw = true := by decide

theorem keywords_varNameIndex : ∀ kw ∈ cppKeywords, varNameIndex kw = none := by decide

theorem varName_not_keyword (i : ℕ) : varName i ∉ cppKeywords := by
  intro h
  have h1 := keywords_varNameIndex _ h
  rw [varNameIndex_varName] at h1
  exact absurd h1 (by simp)

theorem assocFind_mkIdMap_lt {i n : ℕ} (h : i < n) :
    assocFind (mkIdMap n) (varName i) = some (varName i) := by
  induction n with
  | zero => omega
  | succ n ih =>
    rw [mkIdMap, assocFind]
    by_cases he : i = n
    · subst he
      rw [if_pos rfl]
    · rw [if_neg (fun hv => he (varName_inj hv).symm)]
      exact ih (by omega)

theorem assocFind_mkIdMap_none {w : Str} {n : ℕ} (h : ∀ i < n, w ≠ varName i) :
    assocFind (mkIdMap n) w = none := by
  induction n with
  | zero => rfl
  | succ n ih =>
    rw [mkIdMap, assocFind]
    rw [if_neg (fun hv => h n (Nat.lt_succ_self n) hv.symm)]
    exact ih (fun i hi => h i (by omega))

theorem tokenizeFuel_classes {t : Str} :
    ∀ (fuel : ℕ) (s : Str) (m : List (Str × Str)) (n : ℕ),
      (∀ kv ∈ m, ∃ i, kv.2 = varName i) →
      t ∈ tokenizeFuel fuel s m n →
      (isWordTok t = true ∧
        (t ∈ cppKeywords ∨ (∃ i, t = varName i) ∨ t = numTok ∨ t = strTok)) ∨
      (∃ c, t = [c] ∧ isIdentStart c = false ∧ c.isDigit = false ∧
        c ≠ quoteD ∧ c ≠ quoteS) := by
  intro fuel
  induction fuel with
  | zero => intro s m n _ ht; simp [tokenizeFuel] at ht
  | succ fuel ih =>
    intro s m n hm ht
    match s with
    | [] => simp [tokenizeFuel] at ht
    | hd :: tl =>
      rw [tokenizeFuel] at ht
      by_cases h1 : isIdentStart hd
      · simp only [h1, if_pos] at ht
        by_cases h2 : (hd :: tl.takeWhile isIdentChar) ∈ cppKeywords
        · simp only [h2, if_pos] at ht
          rcases List.mem_cons.1 ht with ht1 | ht1
          · exact Or.inl ⟨ht1 ▸ keywords_isWordTok _ h2, Or.inl (ht1 ▸ h2)⟩
          · exact ih _ m n hm ht1
        · simp only [h2, if_neg, if_false] at ht
          rcases hfind : assocFind m (hd :: tl.takeWhile isIdentChar) with _ | v
          · rw [hfind] at ht
            rcases List.mem_cons.1 ht with ht1 | ht1
            · exact Or.inl ⟨ht1 ▸ isWordTok_varName n, Or.inr (Or.inl ⟨n, ht1⟩)⟩
            · refine ih _ _ (n + 1) ?_ ht1
              intro kv hkv
              rcases List.mem_cons.1 hkv with hkv1 | hkv1
              · exact ⟨n, by rw [hkv1]⟩
              · exact hm kv hkv1
          · rw [hfind] at ht
            rcases List.mem_cons.1 ht with ht1 | ht1
            · rcases assocFind_mem hfind with ⟨k, hkm⟩
              rcases hm (k, v) hkm with ⟨i, hv⟩
              have hv2 : v = varName i := hv
              subst ht1
              exact Or.inl ⟨hv2 ▸ isWordTok_varName i, Or.inr (Or.inl ⟨i, hv2⟩)⟩
            · exact ih _ m n hm ht1
      · by_cases h2 : hd.isDigit
        · simp only [h1, h2, Bool.false_eq_true, if_neg, if_pos, if_false] at ht
          rcases List.mem_cons.1 ht with ht1 | ht1
          · exact Or.inl ⟨ht1 ▸ (by decide), Or.inr (Or.inr (Or.inl ht1))⟩
          · exact ih _ m n hm ht1
        · by_cases h3 : hd = quoteD ∨ hd = quoteS
          · simp only [h1, h2, h3, Bool.false_eq_true, if_neg, if_pos, if_false] at ht
            rcases List.mem_cons.1 ht with ht1 | ht1
            · exact Or.inl ⟨ht1 ▸ (by decide), Or.inr (Or.inr (Or.inr ht1))⟩
            · exact ih _ m n hm ht1
          · simp only [h1, h2, h3, Bool.false_eq_true, if_neg, if_false] at ht
            push_neg at h3
            rcases List.mem_cons.1 ht with ht1 | ht1
            · exact Or.inr ⟨hd, ht1, by simpa using h1, by simpa using h2, h3.1, h3.2⟩
            · exact ih _ m n hm ht1

theorem varNameIndex_single (c : Char) : varNameIndex [c] = none := by
  unfold varNameIndex
  split
  · next ds heq => simp at heq
  · rfl

theorem tokenizeFuel_newAsc :
    ∀ (fuel : ℕ) (s : Str) (m : List (Str × Str)) (n : ℕ),
      (∀ kv ∈ m, ∃ i < n, kv.2 = varName i) →
      NewAsc n (tokenizeFuel fuel s m n) := by
  intro fuel
  induction fuel with
  | zero => intro s m n _; simp [tokenizeFuel, NewAsc]
  | succ fuel ih =>
    intro s m n hm
    match s with
    | [] => simp [tokenizeFuel, NewAsc]
    | hd :: tl =>
      rw [tokenizeFuel]
      by_cases h1 : isIdentStart hd
      · simp only [h1, if_pos]
        by_cases h2 : (hd :: tl.takeWhile isIdentChar) ∈ cppKeywords
        · simp only [h2, if_pos]
          rw [NewAsc, keywords_varNameIndex _ h2]
          exact ih _ m n hm
        · simp only [h2, if_neg, if_false]
          rcases hfind : assocFind m (hd :: tl.takeWhile isIdentChar) with _ | v
          · rw [NewAsc, varNameIndex_varName]
            refine Or.inr ⟨rfl, ih _ _ (n + 1) ?_⟩
            intro kv hkv
            rcases List.mem_cons.1 hkv with hkv1 | hkv1
            · exact ⟨n, Nat.lt_succ_self n, by rw [hkv1]⟩
            · rcases hm kv hkv1 with ⟨i, hi, hv⟩
              exact ⟨i, by omega, hv⟩
          · rcases assocFind_mem hfind with ⟨k, hkm⟩
            rcases hm (k, v) hkm with ⟨i, hi, hv⟩
            have hv2 : v = varName i := hv
            subst hv2
            rw [NewAsc, varNameIndex_varName]
            exact Or.inl ⟨hi, ih _ m n hm⟩
      · by_cases h2 : hd.isDigit
        · simp only [h1, h2, Bool.false_eq_true, if_neg, if_pos, if_false]
          rw [NewAsc]
          have : varNameIndex numTok = none := rfl
          rw [this]
          exact ih _ m n hm
        · by_cases h3 : hd = quoteD ∨ hd = quoteS
          · simp only [h1, h2, h3, Bool.false_eq_true, if_neg, if_pos, if_false]
            rw [NewAsc]
            have : varNameIndex strTok = none := rfl
            rw [this]
            exact ih _ m n hm
          · simp only [h1, h2, h3, Bool.false_eq_true, if_neg, if_false]
            rw [NewAsc, varNameIndex_single]
            exact ih _ m n hm

theorem collapseWsAux_chain :
    ∀ (s : Str) (b : Bool),
      List.Chain' (fun c1 c2 => ¬ (isWsP c1 = true ∧ isWsP c2 = true)) (collapseWsAux b s) ∧
      (b = true → ∀ c, (collapseWsAux b s).head? = some c → isWsP c = false) := by
  intro s
  induction s with
  | nil => intro b; simp [collapseWsAux]
  | cons hd tl ih =>
    intro b
    rw [collapseWsAux]
    by_cases hws : isWsP hd
    · simp only [hws, if_pos]
      by_cases hb : b
      · simp only [hb, if_pos]
        exact ⟨(ih true).1, fun _ => (ih true).2 rfl⟩
      · simp only [hb, Bool.false_eq_true, if_neg, if_false]
        refine ⟨List.chain'_cons'.2 ⟨?_, (ih true).1⟩, ?_⟩
        · intro c2 hc2
          have := (ih true).2 rfl c2 hc2
          simp [this]
        · intro hbt
          exact absurd hbt (by simp [hb])
    · simp only [hws, Bool.false_eq_true, if_neg, if_false]
      refine ⟨List.chain'_cons'.2 ⟨?_, (ih false).1⟩, ?_⟩
      · intro c2 _
        simp [hws]
      · intro _ c hc
        simp only [List.head?_cons, Option.some.injEq] at hc
        subst hc
        simpa using hws

theorem stripWsOpsAux_chain :
    ∀ (s : Str) (a : Bool) (p : Str),
      List.Chain' (fun c1 c2 => ¬ (isWsP c1 = true ∧ isWsP c2 = true)) s →
      (∀ c ∈ s, isWsP c = true → c = ' ') →
      (∀ c ∈ p, c = ' ') → p.length ≤ 1 →
      (p ≠ [] → ∀ c, s.head? = some c → isWsP c = false) →
      List.Chain' cleanAdj (stripWsOpsAux a p s) ∧
      (a = true → ∀ c, (stripWsOpsAux a p s).head? = some c → isWsP c = false) := by
  intro s
  induction s with
  | nil =>
    intro a p _ _ hp hp1 _
    rw [stripWsOpsAux]
    by_cases ha : a
    · simp [ha]
    · simp only [ha, Bool.false_eq_true, if_neg, if_false]
      match p, hp1 with
      | [], _ => simp
      | [c], _ =>
        refine ⟨List.chain'_singleton c, ?_⟩
        intro hat
        exact absurd hat (by simp [ha])
  | cons hd tl ih =>
    intro a p hch hws hp hp1 hpne
    rw [stripWsOpsAux]
    by_cases h1 : isWsP hd
    · simp only [h1, if_pos]
      have hpempty : p = [] := by
        by_contra hne
        have := hpne hne hd (by simp)
        rw [h1] at this
        exact absurd this (by simp)
      subst hpempty
      refine ih a [hd] (List.chain'_cons'.1 hch).2 (fun c hc => hws c (List.mem_cons_of_mem _ hc)) ?_ (by simp) ?_
      · intro c hc
        simp only [List.mem_singleton] at hc
        subst hc
        exact hws _ (by simp) h1
      · intro _ c hc
        have hr := (List.chain'_cons'.1 hch).1 c hc
        by_contra hcon
        exact hr ⟨h1, by simpa using hcon⟩
    · by_cases h2 : isOpP hd
      · simp only [h1, h2, Bool.false_eq_true, if_neg, if_pos, if_false]
        have hrec := ih true [] (List.chain'_cons'.1 hch).2
          (fun c hc => hws c (List.mem_cons_of_mem _ hc)) (by simp) (by simp) (by simp)
        refine ⟨List.chain'_cons'.2 ⟨?_, hrec.1⟩, ?_⟩
        · intro c2 hc2
          have hnw := hrec.2 rfl c2 hc2
          exact ⟨fun hx => h1 hx.1, fun hx => h1 hx.1,
                 fun hx => by rw [hnw] at hx; exact absurd hx.2 (by simp)⟩
        · intro _ c hc
          simp only [List.head?_cons, Option.some.injEq] at hc
          subst hc
          simpa using h1
      · simp only [h1, h2, Bool.false_eq_true, if_neg, if_false]
        have hrec := ih false [] (List.chain'_cons'.1 hch).2
          (fun c hc => hws c (List.mem_cons_of_mem _ hc)) (by simp) (by simp) (by simp)
        have hchcons : List.Chain' cleanAdj (hd :: stripWsOpsAux false [] tl) := by
          refine List.chain'_cons'.2 ⟨?_, hrec.1⟩
          intro c2 _
          exact ⟨fun hx => h1 hx.1, fun hx => h1 hx.1, fun hx => h2 hx.1⟩
        by_cases ha : a
        · simp only [ha, if_pos]
          refine ⟨by simpa using hchcons, ?_⟩
          intro _ c hc
          simp only [List.nil_append, List.head?_cons, Option.some.injEq] at hc
          subst hc
          simpa using h1
        · simp only [ha, Bool.false_eq_true, if_neg, if_false]
          match p, hp1 with
          | [], _ =>
            refine ⟨by simpa using hchcons, ?_⟩
            intro hat
            exact absurd hat (by simp [ha])
          | [c0], _ =>
            have hc0 : c0 = ' ' := hp (c0) (by simp)
            subst hc0
            refine ⟨?_, ?_⟩
            · refine List.chain'_cons'.2 ⟨?_, hchcons⟩
              intro c2 hc2
              have hc2b : c2 = hd := by simpa using hc2.symm
              subst hc2b
              exact ⟨fun hx => h1 hx.2, fun hx => h2 hx.2,
                     fun hx => by exact absurd hx.1 (by decide)⟩
            · intro hat
              exact absurd hat (by simp [ha])

theorem head_dropWhile_false {p : Char → Bool} :
    ∀ (l : Str) (c : Char) (cs : Str), l.dropWhile p = c :: cs → p c = false := by
  intro l
  induction l with
  | nil => intro c cs h; simp [List.dropWhile] at h
  | cons hd tl ih =>
    intro c cs h
    rw [List.dropWhile] at h
    by_cases hp : p hd
    · exact ih c cs (by simpa [hp] using h)
    · have h2 : hd :: tl = c :: cs := by simpa [hp] using h
      obtain rfl : hd = c := by injection h2
      simpa using hp

theorem isWordTok_facts {t : Str} (h : isWordTok t = true) :
    t ≠ [' '] ∧ isOpTok t = false := by
  constructor
  · intro he
    rw [he] at h
    exact absurd h (by decide)
  · rcases t with _ | ⟨c, cs⟩
    · exact absurd h (by decide)
    · rcases cs with _ | ⟨c2, cs2⟩
      · rw [isOpTok]
        rw [isWordTok] at h
        simp only [Bool.and_eq_true, List.all_cons, List.all_nil] at h
        by_contra hop
        have := (isOpP_class (by simpa using hop)).2.1
        rw [this] at h
        simp at h
      · rfl

theorem isIdentStart_ident {c : Char} (h : isIdentStart c = true) : isIdentChar c = true := by
  simp only [isIdentStart, decide_eq_true_eq] at h
  rcases h with h | rfl
  · simp [isIdentChar, Char.isAlphanum, h]
  · decide

theorem isDigit_ident {c : Char} (h : c.isDigit = true) : isIdentChar c = true := by
  simp [isIdentChar, Char.isAlphanum, h]

theorem isWordTok_single_false {c : Char} (h : isIdentStart c = false) :
    isWordTok [c] = false := by
  rw [isWordTok]
  simp [h]


theorem wordStepAdj {w : Str} (hw : isWordTok w = true) {rest : Str} {out2 : List Str}
    (hhf : ∀ t2, out2.head? = some t2 →
      ∃ c2, rest.head? = some c2 ∧
        ((isWordTok t2 = true ∧ (isIdentStart c2 = true ∨ t2 = numTok ∨ t2 = strTok)) ∨
         (t2 = [c2] ∧ isIdentStart c2 = false ∧ c2.isDigit = false ∧
          c2 ≠ quoteD ∧ c2 ≠ quoteS)))
    (hn2 : numTok ∉ out2) (hs2 : strTok ∉ out2)
    (hrest : ∀ c2, rest.head? = some c2 → isIdentChar c2 = false) :
    ∀ t2 ∈ out2.head?, tokAdj w t2 := by
  intro t2 ht2
  have ht2s : out2.head? = some t2 := ht2
  have ht2m : t2 ∈ out2 := List.mem_of_mem_head? ht2
  rcases hhf t2 ht2s with ⟨c2, hc2, hcase⟩
  rcases hcase with ⟨hw2, hdisj⟩ | ⟨he, hident, _, _, _⟩
  · rcases hdisj with hst | rfl | rfl
    · exact absurd (isIdentStart_ident hst) (by simp [hrest c2 hc2])
    · exact absurd ht2m hn2
    · exact absurd ht2m hs2
  · subst he
    exact ⟨fun hx => by rw [isWordTok_single_false hident] at hx; exact absurd hx.2 (by simp),
           fun hx => (isWordTok_facts hw).1 hx.1,
           fun hx => (isWordTok_facts hw).1 hx.1,
           fun hx => by rw [(isWordTok_facts hw).2] at hx; exact absurd hx.1 (by simp)⟩

theorem opStepAdj {c : Char} (hop : isOpP c = true) {rest : Str} {out2 : List Str}
    (hhf : ∀ t2, out2.head? = some t2 →
      ∃ c2, rest.head? = some c2 ∧
        ((isWordTok t2 = true ∧ (isIdentStart c2 = true ∨ t2 = numTok ∨ t2 = strTok)) ∨
         (t2 = [c2] ∧ isIdentStart c2 = false ∧ c2.isDigit = false ∧
          c2 ≠ quoteD ∧ c2 ≠ quoteS)))
    (hclean : ∀ c2, rest.head? = some c2 → isWsP c2 = false) :
    ∀ t2 ∈ out2.head?, tokAdj [c] t2 := by
  intro t2 ht2
  have ht2s : out2.head? = some t2 := ht2
  have hcne : c ≠ ' ' := by
    intro he
    subst he
    exact absurd hop (by decide)
  have hwf : isWordTok [c] = false := isWordTok_single_false (isOpP_class hop).2.1
  rcases hhf t2 ht2s with ⟨c2, hc2, hcase⟩
  rcases hcase with ⟨hw2, _⟩ | ⟨he, _, _, _, _⟩
  · refine ⟨fun hx => by rw [hwf] at hx; exact absurd hx.1 (by simp),
            fun hx => hcne (by simpa using congrArg (fun l => l.head?) hx.1),
            fun hx => hcne (by simpa using congrArg (fun l => l.head?) hx.1),
            fun hx => (isWordTok_facts hw2).1 hx.2⟩
  · subst he
    refine ⟨fun hx => by rw [hwf] at hx; exact absurd hx.1 (by simp),
            fun hx => hcne (by simpa using congrArg (fun l => l.head?) hx.1),
            fun hx => hcne (by simpa using congrArg (fun l => l.head?) hx.1),
            fun hx => ?_⟩
    have : c2 = ' ' := by simpa using congrArg (fun l : Str => l.head?) hx.2
    subst this
    exact absurd (hclean _ hc2) (by decide)

theorem spaceStepAdj {rest : Str} {out2 : List Str}
    (hhf : ∀ t2, out2.head? = some t2 →
      ∃ c2, rest.head? = some c2 ∧
        ((isWordTok t2 = true ∧ (isIdentStart c2 = true ∨ t2 = numTok ∨ t2 = strTok)) ∨
         (t2 = [c2] ∧ isIdentStart c2 = false ∧ c2.isDigit = false ∧
          c2 ≠ quoteD ∧ c2 ≠ quoteS)))
    (hclean : ∀ c2, rest.head? = some c2 → isWsP c2 = false ∧ isOpP c2 = false) :
    ∀ t2 ∈ out2.head?, tokAdj [' '] t2 := by
  intro t2 ht2
  have ht2s : out2.head? = some t2 := ht2
  have hwf : isWordTok [' '] = false := by decide
  rcases hhf t2 ht2s with ⟨c2, hc2, hcase⟩
  rcases hcase with ⟨hw2, _⟩ | ⟨he, _, _, _, _⟩
  · refine ⟨fun hx => by rw [hwf] at hx; exact absurd hx.1 (by simp),
            fun hx => (isWordTok_facts hw2).1 hx.2,
            fun hx => by rw [(isWordTok_facts hw2).2] at hx; exact absurd hx.2 (by simp),
            fun hx => by exact absurd hx.1 (by decide)⟩
  · subst he
    refine ⟨fun hx => by rw [hwf] at hx; exact absurd hx.1 (by simp),
            fun hx => ?_, fun hx => ?_,
            fun hx => by exact absurd hx.1 (by decide)⟩
    · have hcs : c2 = ' ' := by simpa using congrArg (fun l : Str => l.head?) hx.2
      subst hcs
      exact absurd (hclean _ hc2).1 (by decide)
    · have hopc : isOpP c2 = true := by
        have := hx.2
        rw [isOpTok] at this
        exact this
      exact absurd (hclean _ hc2).2 (by simp [hopc])

theorem isWordTok_run {c : Char} (h : isIdentStart c = true) (cs : Str) :
    isWordTok (c :: cs.takeWhile isIdentChar) = true := by
  rw [isWordTok]
  simp only [h, Bool.true_and, List.all_cons, Bool.and_eq_true]
  refine ⟨isIdentStart_ident h, ?_⟩
  rw [List.all_eq_true]
  intro x hx
  exact List.mem_takeWhile_imp hx

theorem head_dropWhile_ident :
    ∀ (tl : Str) (c2 : Char), (tl.dropWhile isIdentChar).head? = some c2 →
      isIdentChar c2 = false := by
  intro tl c2 hc2
  rcases hr : tl.dropWhile isIdentChar with _ | ⟨a, as⟩
  · rw [hr] at hc2
    simp at hc2
  · rw [hr] at hc2
    simp only [List.head?_cons, Option.some.injEq] at hc2
    subst hc2
    exact head_dropWhile_false tl a as hr

theorem tokenizeFuel_chain :
    ∀ (fuel : ℕ) (s : Str) (m : List (Str × Str)) (n : ℕ),
      (∀ c ∈ s, isWsP c = true → c = ' ') →
      List.Chain' cleanAdj s →
      numTok ∉ tokenizeFuel fuel s m n →
      strTok ∉ tokenizeFuel fuel s m n →
      (∀ t ∈ tokenizeFuel fuel s m n, t.length = 1 → isOpTok t = true ∨ t = [' ']) →
      (∀ kv ∈ m, ∃ i, kv.2 = varName i) →
      List.Chain' tokAdj (tokenizeFuel fuel s m n) ∧
      (∀ t2, (tokenizeFuel fuel s m n).head? = some t2 →
        ∃ c2, s.head? = some c2 ∧
          ((isWordTok t2 = true ∧ (isIdentStart c2 = true ∨ t2 = numTok ∨ t2 = strTok)) ∨
           (t2 = [c2] ∧ isIdentStart c2 = false ∧ c2.isDigit = false ∧
            c2 ≠ quoteD ∧ c2 ≠ quoteS))) := by
  intro fuel
  induction fuel with
  | zero =>
    intro s m n _ _ _ _ _ _
    refine ⟨by simp [tokenizeFuel], ?_⟩
    intro t2 ht2
    simp [tokenizeFuel] at ht2
  | succ fuel ih =>
    intro s m n hws hch hnum hstr hsingle hm
    match s with
    | [] =>
      refine ⟨by simp [tokenizeFuel], ?_⟩
      intro t2 ht2
      simp [tokenizeFuel] at ht2
    | hd :: tl =>
      obtain ⟨hadj, hchtl⟩ := List.chain'_cons'.1 hch
      have hws2 : ∀ c ∈ tl, isWsP c = true → c = ' ' :=
        fun c hc => hws c (List.mem_cons_of_mem _ hc)
      have hwsdrop : ∀ c ∈ tl.dropWhile isIdentChar, isWsP c = true → c = ' ' :=
        fun c hc => hws2 c ((List.dropWhile_suffix _).subset hc)
      have hchdrop : List.Chain' cleanAdj (tl.dropWhile isIdentChar) :=
        hchtl.suffix (List.dropWhile_suffix _)
      rw [tokenizeFuel] at hnum hstr hsingle ⊢
      by_cases h1 : isIdentStart hd
      · simp only [h1, if_pos] at hnum hstr hsingle ⊢
        by_cases h2 : (hd :: tl.takeWhile isIdentChar) ∈ cppKeywords
        · simp only [h2, if_pos] at hnum hstr hsingle ⊢
          have hn2 : numTok ∉ tokenizeFuel fuel (tl.dropWhile isIdentChar) m n :=
            fun h => hnum (List.mem_cons_of_mem _ h)
          have hs2 : strTok ∉ tokenizeFuel fuel (tl.dropWhile isIdentChar) m n :=
            fun h => hstr (List.mem_cons_of_mem _ h)
          have hsg2 : ∀ t ∈ tokenizeFuel fuel (tl.dropWhile isIdentChar) m n,
              t.length = 1 → isOpTok t = true ∨ t = [' '] :=
            fun t ht => hsingle t (List.mem_cons_of_mem _ ht)
          obtain ⟨ihchain, ihhf⟩ := ih _ m n hwsdrop hchdrop hn2 hs2 hsg2 hm
          have hword : isWordTok (hd :: tl.takeWhile isIdentChar) = true :=
            keywords_isWordTok _ h2
          refine ⟨List.chain'_cons'.2
            ⟨wordStepAdj hword ihhf hn2 hs2 (head_dropWhile_ident tl), ihchain⟩, ?_⟩
          intro t2 ht2
          simp only [List.head?_cons, Option.some.injEq] at ht2
          subst ht2
          exact ⟨hd, rfl, Or.inl ⟨hword, Or.inl h1⟩⟩
        · simp only [h2, if_neg, if_false] at hnum hstr hsingle ⊢
          rcases hfind : assocFind m (hd :: tl.takeWhile isIdentChar) with _ | v
          · rw [hfind] at hnum hstr hsingle
            have hn2 : numTok ∉ tokenizeFuel fuel (tl.dropWhile isIdentChar)
                ((hd :: tl.takeWhile isIdentChar, varName n) :: m) (n + 1) :=
              fun h => hnum (List.mem_cons_of_mem _ h)
            have hs2 : strTok ∉ tokenizeFuel fuel (tl.dropWhile isIdentChar)
                ((hd :: tl.takeWhile isIdentChar, varName n) :: m) (n + 1) :=
              fun h => hstr (List.mem_cons_of_mem _ h)
            have hsg2 : ∀ t ∈ tokenizeFuel fuel (tl.dropWhile isIdentChar)
                ((hd :: tl.takeWhile isIdentChar, varName n) :: m) (n + 1),
                t.length = 1 → isOpTok t = true ∨ t = [' '] :=
              fun t ht => hsingle t (List.mem_cons_of_mem _ ht)
            have hm2 : ∀ kv ∈ (hd :: tl.takeWhile isIdentChar, varName n) :: m,
                ∃ i, kv.2 = varName i := by
              intro kv hkv
              rcases List.mem_cons.1 hkv with hkv1 | hkv1
              · exact ⟨n, by rw [hkv1]⟩
              · exact hm kv hkv1
            obtain ⟨ihchain, ihhf⟩ := ih _ _ (n + 1) hwsdrop hchdrop hn2 hs2 hsg2 hm2
            have hword : isWordTok (varName n) = true := isWordTok_varName n
            refine ⟨List.chain'_cons'.2
              ⟨wordStepAdj hword ihhf hn2 hs2 (head_dropWhile_ident tl), ihchain⟩, ?_⟩
            intro t2 ht2
            simp only [List.head?_cons, Option.some.injEq] at ht2
            subst ht2
            exact ⟨hd, rfl, Or.inl ⟨hword, Or.inl h1⟩⟩
          · rw [hfind] at hnum hstr hsingle
            have hn2 : numTok ∉ tokenizeFuel fuel (tl.dropWhile isIdentChar) m n :=
              fun h => hnum (List.mem_cons_of_mem _ h)
            have hs2 : strTok ∉ tokenizeFuel fuel (tl.dropWhile isIdentChar) m n :=
              fun h => hstr (List.mem_cons_of_mem _ h)
            have hsg2 : ∀ t ∈ tokenizeFuel fuel (tl.dropWhile isIdentChar) m n,
                t.length = 1 → isOpTok t = true ∨ t = [' '] :=
              fun t ht => hsingle t (List.mem_cons_of_mem _ ht)
            obtain ⟨ihchain, ihhf⟩ := ih _ m n hwsdrop hchdrop hn2 hs2 hsg2 hm
            have hword : isWordTok v = true := by
              rcases assocFind_mem hfind with ⟨k, hkm⟩
              rcases hm (k, v) hkm with ⟨i, hv⟩
              have hv2 : v = varName i := hv
              rw [hv2]
              exact isWordTok_varName i
            refine ⟨List.chain'_cons'.2
              ⟨wordStepAdj hword ihhf hn2 hs2 (head_dropWhile_ident tl), ihchain⟩, ?_⟩
            intro t2 ht2
            simp only [List.head?_cons, Option.some.injEq] at ht2
            subst ht2
            exact ⟨hd, rfl, Or.inl ⟨hword, Or.inl h1⟩⟩
      · by_cases h2 : hd.isDigit
        · simp only [h1, h2, Bool.false_eq_true, if_neg, if_pos, if_false] at hnum
          exact absurd (List.mem_cons_self _ _) hnum
        · by_cases h3 : hd = quoteD ∨ hd = quoteS
          · simp only [h1, h2, h3, Bool.false_eq_true, if_neg, if_pos, if_false] at hstr
            exact absurd (List.mem_cons_self _ _) hstr
          · simp only [h1, h2, h3, Bool.false_eq_true, if_neg, if_false] at hnum hstr hsingle ⊢
            push_neg at h3
            have hn2 : numTok ∉ tokenizeFuel fuel tl m n :=
              fun h => hnum (List.mem_cons_of_mem _ h)
            have hs2 : strTok ∉ tokenizeFuel fuel tl m n :=
              fun h => hstr (List.mem_cons_of_mem _ h)
            have hsg2 : ∀ t ∈ tokenizeFuel fuel tl m n,
                t.length = 1 → isOpTok t = true ∨ t = [' '] :=
              fun t ht => hsingle t (List.mem_cons_of_mem _ ht)
            obtain ⟨ihchain, ihhf⟩ := ih _ m n hws2 hchtl hn2 hs2 hsg2 hm
            have hcase : isOpTok [hd] = true ∨ [hd] = [' '] :=
              hsingle [hd] (List.mem_cons_self _ _) rfl
            have hhead : ∀ t2, ((([hd]) :: tokenizeFuel fuel tl m n).head? = some t2 →
                ∃ c2, (hd :: tl).head? = some c2 ∧
                  ((isWordTok t2 = true ∧
                    (isIdentStart c2 = true ∨ t2 = numTok ∨ t2 = strTok)) ∨
                   (t2 = [c2] ∧ isIdentStart c2 = false ∧ c2.isDigit = false ∧
                    c2 ≠ quoteD ∧ c2 ≠ quoteS))) := by
              intro t2 ht2
              simp only [List.head?_cons, Option.some.injEq] at ht2
              subst ht2
              exact ⟨hd, rfl, Or.inr ⟨rfl, by simpa using h1, by simpa using h2,
                h3.1, h3.2⟩⟩
            rcases hcase with hop' | hsp
            · rw [isOpTok] at hop'
              have hclean : ∀ c2, tl.head? = some c2 → isWsP c2 = false := by
                intro c2 hc2
                have hca := hadj c2 hc2
                cases hw2 : isWsP c2
                · rfl
                · exact absurd ⟨hop', hw2⟩ hca.2.2
              exact ⟨List.chain'_cons'.2 ⟨opStepAdj hop' ihhf hclean, ihchain⟩, hhead⟩
            · have hde : hd = ' ' := by
                have := congrArg (fun l : Str => l.head?) hsp
                simpa using this
              subst hde
              have hclean : ∀ c2, tl.head? = some c2 →
                  isWsP c2 = false ∧ isOpP c2 = false := by
                intro c2 hc2
                have hca := hadj c2 hc2
                constructor
                · cases hw2 : isWsP c2
                  · rfl
                  · exact absurd ⟨by decide, hw2⟩ hca.1
                · cases hw2 : isOpP c2
                  · rfl
                  · exact absurd ⟨by decide, hw2⟩ hca.2.1
              exact ⟨List.chain'_cons'.2 ⟨spaceStepAdj ihhf hclean, ihchain⟩, hhead⟩

theorem isWsP_cases {c : Char} (h : isWsP c = true) :
    c = ' ' ∨ c = Char.ofNat 9 ∨ c = Char.ofNat 10 ∨ c = Char.ofNat 13 ∨
    c = Char.ofNat 11 ∨ c = Char.ofNat 12 := by
  simpa [isWsP] using h

theorem isIdentChar_not_ws {c : Char} (h : isIdentChar c = true) : isWsP c = false := by
  cases hw : isWsP c
  · rfl
  · rcases isWsP_cases hw with rfl | rfl | rfl | rfl | rfl | rfl <;> exact absurd h (by decide)

theorem isOpP_not_ws {c : Char} (h : isOpP c = true) : isWsP c = false := by
  cases hw : isWsP c
  · rfl
  · rcases isWsP_cases hw with rfl | rfl | rfl | rfl | rfl | rfl <;> exact absurd h (by decide)

theorem isWordTok_chars {t : Str} (h : isWordTok t = true) :
    ∀ c ∈ t, isIdentChar c = true := by
  rcases t with _ | ⟨c0, cs⟩
  · exact absurd h (by decide)
  · rw [isWordTok] at h
    simp only [Bool.and_eq_true] at h
    intro c hc
    exact (List.all_eq_true.1 h.2) c hc

theorem isOpTok_shape {t : Str} (h : isOpTok t = true) :
    ∃ c, t = [c] ∧ isOpP c = true := by
  rcases t with _ | ⟨c0, cs⟩
  · exact absurd h (by decide)
  · rcases cs with _ | ⟨c1, cs1⟩
    · exact ⟨c0, rfl, by rw [isOpTok] at h; exact h⟩
    · have hf : isOpTok (c0 :: c1 :: cs1) = false := rfl
      rw [hf] at h
      exact absurd h (by simp)

theorem noPair_iff_chain {a b : Char} :
    ∀ s : Str, noPair a b s ↔ List.Chain' (fun x y => ¬ (x = a ∧ y = b)) s
  | [] => by simp [noPair]
  | [c] => by simp [noPair]
  | c1 :: c2 :: rest => by
    rw [noPair, List.chain'_cons, noPair_iff_chain (c2 :: rest)]

theorem chain_of_forall {R : Char → Char → Prop} :
    ∀ l : Str, (∀ x ∈ l, ∀ y, R x y) → List.Chain' R l := by
  intro l
  induction l with
  | nil => intro _; exact List.chain'_nil
  | cons hd tl ih =>
    intro h
    exact List.chain'_cons'.2 ⟨fun y _ => h hd (List.mem_cons_self _ _) y,
      ih (fun x hx y => h x (List.mem_cons_of_mem _ hx) y)⟩

theorem renderJoin_singleton (t : Str) : renderJoin [t] = t := by
  simp [renderJoin, List.intercalate]

theorem renderJoin_cons_cons (t t2 : Str) (ts : List Str) :
    renderJoin (t :: t2 :: ts) = t ++ ' ' :: renderJoin (t2 :: ts) := by
  simp [renderJoin, List.intercalate, List.intersperse]

theorem chainNoPair {c1 c2 : Char} (hic : isIdentChar c1 = false) (hc1 : c1 ≠ ' ')
    (hc2 : c2 ≠ ' ') :
    ∀ T : List Str, (∀ t ∈ T, isWordTok t = true ∨ t.length = 1) →
      List.Chain' (fun x y => ¬ (x = c1 ∧ y = c2)) (renderJoin T) := by
  have hchtok : ∀ t : Str, isWordTok t = true ∨ t.length = 1 →
      List.Chain' (fun x y => ¬ (x = c1 ∧ y = c2)) t := by
    intro t ht
    rcases ht with hw | hs
    · refine chain_of_forall t ?_
      intro x hx y hxy
      have := isWordTok_chars hw x hx
      rw [hxy.1] at this
      exact absurd this (by simp [hic])
    · rcases t with _ | ⟨c0, cs⟩
      · exact List.chain'_nil
      · rcases cs with _ | ⟨c3, cs3⟩
        · exact List.chain'_singleton _
        · simp at hs
  intro T
  induction T with
  | nil => intro _; exact List.chain'_nil
  | cons t ts ih =>
    intro hT
    rcases ts with _ | ⟨t2, ts'⟩
    · rw [renderJoin_singleton]
      exact hchtok t (hT t (List.mem_cons_self _ _))
    · rw [renderJoin_cons_cons]
      rw [List.chain'_append]
      refine ⟨hchtok t (hT t (List.mem_cons_self _ _)), ?_, ?_⟩
      · refine List.chain'_cons'.2 ⟨?_, ih (fun u hu => hT u (List.mem_cons_of_mem _ hu))⟩
        intro y _ hxy
        exact hc1 hxy.1.symm
      · intro x _ y hy hxy
        have hys : ' ' = y := by simpa using hy
        exact hc2 (hxy.2.symm.trans hys.symm)

theorem stripBlockFuel_id :
    ∀ (fuel : ℕ) (s : Str), noPair '/' '*' s → stripBlockFuel fuel s = s := by
  intro fuel
  induction fuel with
  | zero => intro s _; rfl
  | succ fuel ih =>
    intro s hnp
    match s with
    | [] => rfl
    | [c1] => rfl
    | c1 :: c2 :: rest2 =>
      rw [noPair] at hnp
      rw [stripBlockFuel]
      simp only [if_neg hnp.1]
      rw [ih _ hnp.2]

theorem stripLineFuel_id :
    ∀ (fuel : ℕ) (s : Str), noPair '/' '/' s → stripLineFuel fuel s = s := by
  intro fuel
  induction fuel with
  | zero => intro s _; rfl
  | succ fuel ih =>
    intro s hnp
    match s with
    | [] => rfl
    | [c1] => rfl
    | c1 :: c2 :: rest2 =>
      rw [noPair] at hnp
      rw [stripLineFuel]
      simp only [if_neg hnp.1]
      rw [ih _ hnp.2]

theorem commentPhase_id {s : Str} (h1 : noPair '/' '*' s) (h2 : noPair '/' '/' s) :
    commentPhase defaultConfig s = s := by
  rw [commentPhase]
  simp only [defaultConfig, if_pos]
  rw [stripBlockComments, stripBlockFuel_id _ _ h1, stripLineComments, stripLineFuel_id _ _ h2]

theorem collapseWsAux_nonws_cons {c : Char} (h : isWsP c = false) (b : Bool) (cs : Str) :
    collapseWsAux b (c :: cs) = c :: collapseWsAux false cs := by
  rw [collapseWsAux]
  simp [h]

theorem collapseWsAux_plain :
    ∀ (t : Str) (b : Bool) (rest : Str), t ≠ [] → (∀ c ∈ t, isWsP c = false) →
      collapseWsAux b (t ++ rest) = t ++ collapseWsAux false rest := by
  intro t
  induction t with
  | nil => intro b rest h _; exact absurd rfl h
  | cons c t' ih =>
    intro b rest _ hall
    rw [List.cons_append, collapseWsAux_nonws_cons (hall c (List.mem_cons_self _ _))]
    rcases t' with _ | ⟨c2, t''⟩
    · simp
    · rw [ih false rest (by simp) (fun x hx => hall x (List.mem_cons_of_mem _ hx))]
      rfl

theorem collapseWsAux_space_true (cs : Str) :
    collapseWsAux true (' ' :: cs) = collapseWsAux true cs := by
  rw [collapseWsAux]
  simp [(by decide : isWsP ' ' = true)]

theorem collapseWsAux_space_false (cs : Str) :
    collapseWsAux false (' ' :: cs) = ' ' :: collapseWsAux true cs := by
  rw [collapseWsAux]
  simp [(by decide : isWsP ' ' = true)]

theorem plainTok {t : Str} (h : isWordTok t = true ∨ isOpTok t = true) :
    t ≠ [] ∧ ∀ c ∈ t, isWsP c = false := by
  rcases h with h | h
  · rcases t with _ | ⟨c0, cs⟩
    · exact absurd h (by decide)
    · exact ⟨by simp, fun c hc => isIdentChar_not_ws (isWordTok_chars h c hc)⟩
  · rcases isOpTok_shape h with ⟨c, rfl, hop⟩
    refine ⟨by simp, ?_⟩
    intro d hd
    have hdc : d = c := by simpa using hd
    exact hdc ▸ isOpP_not_ws hop

theorem plainTok_ne_space {t : Str} (h : isWordTok t = true ∨ isOpTok t = true) :
    t ≠ [' '] := by
  intro he
  have := (plainTok h).2 ' ' (by rw [he]; exact List.mem_cons_self _ _)
  exact absurd this (by decide)

theorem collapseWs_renderJoin :
    ∀ T : List Str,
      (∀ t ∈ T, isWordTok t = true ∨ isOpTok t = true ∨ t = [' ']) →
      List.Chain' tokAdj T →
      collapseWsAux false (renderJoin T) = denseRender T ∧
      collapseWsAux true (renderJoin T) =
        (if T.head? = some [' '] then (denseRender T).tail else denseRender T) := by
  intro T
  induction T with
  | nil =>
    intro _ _
    constructor <;> simp [renderJoin, List.intercalate, collapseWsAux, denseRender]
  | cons t ts ih =>
    intro hf hch
    obtain ⟨hadj, hchts⟩ := List.chain'_cons'.1 hch
    have hts := fun u hu => hf u (List.mem_cons_of_mem _ hu)
    have ht := hf t (List.mem_cons_self _ _)
    rcases ts with _ | ⟨t2, ts'⟩
    · rw [renderJoin_singleton]
      rcases (or_assoc.2 ht) with hpl | hsp
      · have hne := (plainTok hpl).1
        have hpw := (plainTok hpl).2
        have h1 : collapseWsAux false t = t := by
          have := collapseWsAux_plain t false [] hne hpw
          simpa [collapseWsAux] using this
        have h2 : collapseWsAux true t = t := by
          have := collapseWsAux_plain t true [] hne hpw
          simpa [collapseWsAux] using this
        refine ⟨by rw [h1]; rfl, ?_⟩
        rw [if_neg (by simp [plainTok_ne_space hpl]), h2]
        rfl
      · subst hsp
        refine ⟨?_, ?_⟩
        · rw [collapseWsAux_space_false]
          rfl
        · rw [collapseWsAux_space_true, if_pos (by simp)]
          rfl
    · obtain ⟨ih1, ih2⟩ := ih hts hchts
      have ht2 := hts t2 (List.mem_cons_self _ _)
      have hadj2 : tokAdj t t2 := hadj t2 (by simp)
      rw [renderJoin_cons_cons]
      rcases (or_assoc.2 ht) with hpl | hsp
      · have hne := (plainTok hpl).1
        have hpw := (plainTok hpl).2
        have hstep : ∀ b : Bool, collapseWsAux b (t ++ ' ' :: renderJoin (t2 :: ts')) =
            t ++ ' ' :: collapseWsAux true (renderJoin (t2 :: ts')) := by
          intro b
          rw [collapseWsAux_plain t b _ hne hpw, collapseWsAux_space_false]
        rcases (or_assoc.2 ht2) with hpl2 | hsp2
        · have hsep : denseSep t t2 = [' '] := by
            rw [denseSep, if_neg]
            push_neg
            exact ⟨plainTok_ne_space hpl, plainTok_ne_space hpl2⟩
          have hcoll : collapseWsAux true (renderJoin (t2 :: ts')) = denseRender (t2 :: ts') := by
            rw [ih2, if_neg (by simp [plainTok_ne_space hpl2])]
          rw [denseRender, hsep]
          refine ⟨?_, ?_⟩
          · rw [hstep false, hcoll]
            simp
          · rw [if_neg (by simp [plainTok_ne_space hpl]), hstep true, hcoll]
            simp
        · subst hsp2
          have hsep : denseSep t [' '] = [] := by
            rw [denseSep, if_pos (Or.inr rfl)]
          have hcoll : collapseWsAux true (renderJoin ([' '] :: ts')) =
              (denseRender ([' '] :: ts')).tail := by
            rw [ih2, if_pos (by simp)]
          have hdd : ' ' :: (denseRender ([' '] :: ts')).tail = denseRender ([' '] :: ts') := by
            rcases ts' with _ | ⟨t3, ts''⟩
            · rfl
            · rw [denseRender, denseSep, if_pos (Or.inl rfl)]
              simp
          rw [denseRender, hsep]
          refine ⟨?_, ?_⟩
          · rw [hstep false, hcoll]
            simp [hdd]
          · rw [if_neg (by simp [plainTok_ne_space hpl]), hstep true, hcoll]
            simp [hdd]
      · subst hsp
        have ht2pl : isWordTok t2 = true ∨ isOpTok t2 = true := by
          rcases or_assoc.2 ht2 with h | h
          · exact h
          · exact absurd ⟨rfl, h⟩ hadj2.2.1
        have ht2ne : t2 ≠ [' '] := plainTok_ne_space ht2pl
        have hcoll : collapseWsAux true (renderJoin (t2 :: ts')) = denseRender (t2 :: ts') := by
          rw [ih2, if_neg (by simp [ht2ne])]
        have hsep : denseSep [' '] t2 = [] := by
          rw [denseSep, if_pos (Or.inl rfl)]
        rw [denseRender, hsep]
        refine ⟨?_, ?_⟩
        · rw [List.cons_append, List.nil_append, collapseWsAux_space_false,
            collapseWsAux_space_true, hcoll]
          simp
        · rw [List.cons_append, List.nil_append, collapseWsAux_space_true,
            collapseWsAux_space_true, hcoll, if_pos (by simp)]
          simp

theorem isOpP_cases {c : Char} (h : isOpP c = true) :
    c = '=' ∨ c = '+' ∨ c = '-' ∨ c = '*' ∨ c = '/' ∨ c = '(' ∨ c = ')' ∨
    c = lbrace ∨ c = rbrace ∨ c = '[' ∨ c = ']' ∨ c = ';' ∨ c = '<' ∨
    c = '>' ∨ c = '!' ∨ c = '&' ∨ c = '|' ∨ c = ',' ∨ c = '.' := by
  simpa [isOpP] using h

theorem isIdentChar_not_op {c : Char} (h : isIdentChar c = true) : isOpP c = false := by
  cases hw : isOpP c
  · rfl
  · rcases isOpP_cases hw with rfl | rfl | rfl | rfl | rfl | rfl | rfl | rfl | rfl | rfl |
      rfl | rfl | rfl | rfl | rfl | rfl | rfl | rfl | rfl <;> exact absurd h (by decide)

theorem stripWsOpsAux_plain_cons {c : Char} (hws : isWsP c = false) (hop : isOpP c = false)
    (b : Bool) (p : Str) (cs : Str) :
    stripWsOpsAux b p (c :: cs) = (if b then [] else p) ++ c :: stripWsOpsAux false [] cs := by
  rw [stripWsOpsAux]
  simp [hws, hop]

theorem stripWsOpsAux_op_cons {c : Char} (hop : isOpP c = true) (b : Bool) (p : Str)
    (cs : Str) :
    stripWsOpsAux b p (c :: cs) = c :: stripWsOpsAux true [] cs := by
  rw [stripWsOpsAux]
  simp [isOpP_not_ws hop, hop]

theorem stripWsOpsAux_space_cons (b : Bool) (p : Str) (cs : Str) :
    stripWsOpsAux b p (' ' :: cs) = stripWsOpsAux b (p ++ [' ']) cs := by
  rw [stripWsOpsAux]
  simp [(by decide : isWsP ' ' = true)]

theorem stripWsOpsAux_plain_run :
    ∀ (t : Str) (rest : Str), (∀ c ∈ t, isWsP c = false ∧ isOpP c = false) →
      stripWsOpsAux false [] (t ++ rest) = t ++ stripWsOpsAux false [] rest := by
  intro t
  induction t with
  | nil => intro rest _; rfl
  | cons c t' ih =>
    intro rest hall
    have hc := hall c (List.mem_cons_self _ _)
    rw [List.cons_append, stripWsOpsAux_plain_cons hc.1 hc.2,
      ih rest (fun x hx => hall x (List.mem_cons_of_mem _ hx))]
    simp

theorem stripWsOpsAux_plain_entry :
    ∀ (t : Str) (b : Bool) (p : Str) (rest : Str), t ≠ [] →
      (∀ c ∈ t, isWsP c = false ∧ isOpP c = false) →
      stripWsOpsAux b p (t ++ rest) =
        (if b then [] else p) ++ t ++ stripWsOpsAux false [] rest := by
  intro t b p rest hne hall
  rcases t with _ | ⟨c, t'⟩
  · exact absurd rfl hne
  · have hc := hall c (List.mem_cons_self _ _)
    rw [List.cons_append, stripWsOpsAux_plain_cons hc.1 hc.2,
      stripWsOpsAux_plain_run t' rest (fun x hx => hall x (List.mem_cons_of_mem _ hx))]
    simp

theorem wordTok_plain {t : Str} (h : isWordTok t = true) :
    ∀ c ∈ t, isWsP c = false ∧ isOpP c = false := by
  intro c hc
  have := isWordTok_chars h c hc
  exact ⟨isIdentChar_not_ws this, isIdentChar_not_op this⟩

theorem stripWs_denseRender :
    ∀ T : List Str,
      (∀ t ∈ T, isWordTok t = true ∨ isOpTok t = true ∨ t = [' ']) →
      List.Chain' tokAdj T →
      stripWsOpsAux false [] (denseRender T) = T.flatten ∧
      (T ≠ [] → (∀ u ∈ T.head?, isOpTok u = true) →
        stripWsOpsAux false [' '] (denseRender T) = T.flatten) ∧
      (T ≠ [] → (∀ u ∈ T.head?, isWordTok u = true ∨ isOpTok u = true) →
        stripWsOpsAux true [' '] (denseRender T) = T.flatten) ∧
      (T ≠ [] → (∀ u ∈ T.head?, isWordTok u = true) →
        stripWsOpsAux false [' '] (denseRender T) = ' ' :: T.flatten) := by
  intro T
  induction T with
  | nil =>
    refine fun _ _ => ⟨rfl, fun h => absurd rfl h, fun h => absurd rfl h, fun h => absurd rfl h⟩
  | cons t ts ih =>
    intro hf hch
    obtain ⟨hadj, hchts⟩ := List.chain'_cons'.1 hch
    have hts := fun u hu => hf u (List.mem_cons_of_mem _ hu)
    have ht := hf t (List.mem_cons_self _ _)
    obtain ⟨ihA, ihB, ihC, ihD⟩ := ih hts hchts
    rcases ts with _ | ⟨t2, ts'⟩
    · rcases or_assoc.2 ht with hpl | hsp
      · have hjoin : ([t] : List Str).flatten = t := by simp
        rcases hpl with hw | hop
        · have hple := stripWsOpsAux_plain_entry t
          have hplain := wordTok_plain hw
          have hne : t ≠ [] := (plainTok (Or.inl hw)).1
          refine ⟨?_, ?_, ?_, ?_⟩
          · have := hple false [] [] hne hplain
            simpa [denseRender, stripWsOpsAux] using this
          · intro _ hhd
            have := hhd t (by simp)
            exact absurd this (by simp [(isWordTok_facts hw).2])
          · intro _ _
            have := hple true [' '] [] hne hplain
            simpa [denseRender, stripWsOpsAux] using this
          · intro _ _
            have := hple false [' '] [] hne hplain
            simpa [denseRender, stripWsOpsAux] using this
        · rcases isOpTok_shape hop with ⟨c, rfl, hopc⟩
          have hstep : ∀ (b : Bool) (p : Str),
              stripWsOpsAux b p (denseRender [[c]]) = ([[c]] : List Str).flatten := by
            intro b p
            have : denseRender [[c]] = [c] := rfl
            rw [this, show ([c] : Str) = c :: [] from rfl, stripWsOpsAux_op_cons hopc]
            simp [stripWsOpsAux]
          refine ⟨hstep false [], fun _ _ => hstep false [' '], fun _ _ => hstep true [' '], ?_⟩
          intro _ hhd
          have := hhd [c] (by simp)
          rw [isWordTok_single_false (isOpP_class hopc).2.1] at this
          exact absurd this (by simp)
      · subst hsp
        refine ⟨?_, ?_, ?_, ?_⟩
        · show stripWsOpsAux false [] [' '] = _
          rw [stripWsOpsAux_space_cons]
          simp [stripWsOpsAux]
        · intro _ hhd
          have := hhd [' '] (by simp)
          exact absurd this (by decide)
        · intro _ hhd
          have := hhd [' '] (by simp)
          rcases this with h | h <;> exact absurd h (by decide)
        · intro _ hhd
          have := hhd [' '] (by simp)
          exact absurd this (by decide)
    · have ht2 := hts t2 (List.mem_cons_self _ _)
      have hadj2 : tokAdj t t2 := hadj t2 (by simp)
      have hjoin : ((t :: t2 :: ts') : List Str).flatten = t ++ (t2 :: ts').flatten := by simp
      rcases or_assoc.2 ht with hpl | hsp
      · rcases hpl with hw | hop
        · have hplain := wordTok_plain hw
          have hne : t ≠ [] := (plainTok (Or.inl hw)).1
          have hcont : stripWsOpsAux false []
              (denseSep t t2 ++ denseRender (t2 :: ts')) = (t2 :: ts').flatten := by
            rcases or_assoc.2 ht2 with hpl2 | hsp2
            · rcases hpl2 with hw2 | hop2
              · exact absurd ⟨hw, hw2⟩ hadj2.1
              · rw [denseSep, if_neg (by push_neg; exact ⟨plainTok_ne_space (Or.inl hw),
                  plainTok_ne_space (Or.inr hop2)⟩)]
                rw [List.cons_append, List.nil_append, stripWsOpsAux_space_cons,
                  List.nil_append]
                exact ihB (by simp)
                  (by intro u hu; exact (by simpa using hu : t2 = u) ▸ hop2)
            · subst hsp2
              rw [denseSep, if_pos (Or.inr rfl), List.nil_append]
              exact ihA
          have hentry : ∀ (b : Bool) (p : Str),
              stripWsOpsAux b p (denseRender (t :: t2 :: ts')) =
                (if b then [] else p) ++ t ++ (t2 :: ts').flatten := by
            intro b p
            rw [denseRender, List.append_assoc, stripWsOpsAux_plain_entry t b p _ hne hplain,
              hcont]
          refine ⟨?_, ?_, ?_, ?_⟩
          · rw [hentry false [], hjoin]
            simp
          · intro _ hhd
            have := hhd t (by simp)
            exact absurd this (by simp [(isWordTok_facts hw).2])
          · intro _ _
            rw [hentry true [' '], hjoin]
            simp
          · intro _ _
            rw [hentry false [' '], hjoin]
            simp
        · rcases isOpTok_shape hop with ⟨c, rfl, hopc⟩
          have ht2ne : t2 ≠ [' '] := fun he => hadj2.2.2.2 ⟨by rw [isOpTok]; exact hopc, he⟩
          have ht2wo : isWordTok t2 = true ∨ isOpTok t2 = true := by
            rcases or_assoc.2 ht2 with h | h
            · exact h
            · exact absurd h ht2ne
          have hstep : ∀ (b : Bool) (p : Str),
              stripWsOpsAux b p (denseRender ([c] :: t2 :: ts')) =
                c :: (t2 :: ts').flatten := by
            intro b p
            rw [denseRender, denseSep,
              if_neg (by push_neg; exact ⟨plainTok_ne_space (Or.inr hop), ht2ne⟩)]
            rw [show (([c] : Str) ++ [' '] ++ denseRender (t2 :: ts')) =
              c :: ' ' :: denseRender (t2 :: ts') by simp]
            rw [stripWsOpsAux_op_cons hopc, stripWsOpsAux_space_cons, List.nil_append]
            rw [ihC (by simp)
              (by intro u hu; exact (by simpa using hu : t2 = u) ▸ ht2wo)]
          have hjc : ((([c] : Str) :: t2 :: ts') : List Str).flatten =
              c :: (t2 :: ts').flatten := by simp
          refine ⟨by rw [hstep false [], hjc], fun _ _ => by rw [hstep false [' '], hjc],
            fun _ _ => by rw [hstep true [' '], hjc], ?_⟩
          intro _ hhd
          have := hhd [c] (by simp)
          rw [isWordTok_single_false (isOpP_class hopc).2.1] at this
          exact absurd this (by simp)
      · subst hsp
        have ht2w : isWordTok t2 = true := by
          rcases or_assoc.2 ht2 with h | h
          · rcases h with h | h
            · exact h
            · exact absurd ⟨rfl, h⟩ hadj2.2.2.1
          · exact absurd ⟨rfl, h⟩ hadj2.2.1
        have hD : denseRender ([' '] :: t2 :: ts') = ' ' :: denseRender (t2 :: ts') := by
          rw [denseRender, denseSep, if_pos (Or.inl rfl)]
          simp
        refine ⟨?_, ?_, ?_, ?_⟩
        · rw [hD, stripWsOpsAux_space_cons, List.nil_append]
          rw [ihD (by simp)
            (by intro u hu; exact (by simpa using hu : t2 = u) ▸ ht2w)]
          simp
        · intro _ hhd
          have := hhd [' '] (by simp)
          exact absurd this (by decide)
        · intro _ hhd
          have := hhd [' '] (by simp)
          rcases this with h | h <;> exact absurd h (by decide)
        · intro _ hhd
          have := hhd [' '] (by simp)
          exact absurd this (by decide)

theorem takeWhile_run {p : Char → Bool} :
    ∀ (w rest : Str), (∀ c ∈ w, p c = true) →
      (∀ c, rest.head? = some c → p c = false) →
      (w ++ rest).takeWhile p = w ∧ (w ++ rest).dropWhile p = rest := by
  intro w
  induction w with
  | nil =>
    intro rest _ hrest
    rcases rest with _ | ⟨c, cs⟩
    · exact ⟨rfl, rfl⟩
    · have hc : p c = false := hrest c rfl
      constructor
      · rw [List.nil_append, List.takeWhile_cons_of_neg (by simp [hc])]
      · rw [List.nil_append, List.dropWhile_cons_of_neg (by simp [hc])]
  | cons c w' ih =>
    intro rest hall hrest
    have hc : p c = true := hall c (List.mem_cons_self _ _)
    obtain ⟨h1, h2⟩ := ih rest (fun x hx => hall x (List.mem_cons_of_mem _ hx)) hrest
    constructor
    · rw [List.cons_append, List.takeWhile_cons_of_pos (by simp [hc]), h1]
    · rw [List.cons_append, List.dropWhile_cons_of_pos (by simp [hc]), h2]

theorem retokenize :
    ∀ (T : List Str) (n fuel : ℕ),
      (∀ t ∈ T, (isWordTok t = true ∧ (t ∈ cppKeywords ∨ ∃ i, t = varName i)) ∨
        isOpTok t = true ∨ t = [' ']) →
      List.Chain' tokAdj T →
      NewAsc n T →
      T.flatten.length + 1 ≤ fuel →
      tokenizeFuel fuel T.flatten (mkIdMap n) n = T := by
  intro T
  induction T with
  | nil =>
    intro n fuel _ _ _ hfuel
    rcases fuel with _ | f
    · exfalso
      simp at hfuel
    · simp [tokenizeFuel]
  | cons t ts ih =>
    intro n fuel hf hch hna hfuel
    obtain ⟨hadj, hchts⟩ := List.chain'_cons'.1 hch
    have hts := fun u hu => hf u (List.mem_cons_of_mem _ hu)
    have ht := hf t (List.mem_cons_self _ _)
    have hflat : ((t :: ts) : List Str).flatten = t ++ ts.flatten := by simp
    rcases fuel with _ | f
    · exfalso
      simp at hfuel
    rcases ht with ⟨hw, hkv⟩ | hsingle
    · rcases t with _ | ⟨c, t'⟩
      · exact absurd hw (by decide)
      have hstart : isIdentStart c = true := by
        have h := hw
        rw [isWordTok, Bool.and_eq_true] at h
        exact h.1
      have hallid : ∀ x ∈ t', isIdentChar x = true :=
        fun x hx => isWordTok_chars hw x (List.mem_cons_of_mem _ hx)
      have hrest : ∀ c2, ts.flatten.head? = some c2 → isIdentChar c2 = false := by
        intro c2 hc2
        rcases ts with _ | ⟨t2, ts''⟩
        · simp at hc2
        · have ht2 := hts t2 (List.mem_cons_self _ _)
          have hadj2 : tokAdj (c :: t') t2 := hadj t2 (by simp)
          have hsg : isOpTok t2 = true ∨ t2 = [' '] := by
            rcases ht2 with ⟨hw2, _⟩ | h2
            · exact absurd ⟨hw, hw2⟩ hadj2.1
            · exact h2
          obtain ⟨d, rfl, hd⟩ : ∃ d, t2 = [d] ∧ isIdentChar d = false := by
            rcases hsg with hop2 | hsp2
            · rcases isOpTok_shape hop2 with ⟨d, rfl, hopd⟩
              exact ⟨d, rfl, (isOpP_class hopd).1⟩
            · exact ⟨' ', hsp2, by decide⟩
          have hc2d : d = c2 := by simpa using hc2
          exact hc2d ▸ hd
      obtain ⟨htake, hdrop⟩ := takeWhile_run t' ts.flatten hallid hrest
      have hfuel2 : ts.flatten.length + 1 ≤ f := by
        rw [hflat] at hfuel
        simp only [List.length_append, List.length_cons] at hfuel
        omega
      rw [hflat, List.cons_append, tokenizeFuel]
      simp only [hstart, if_pos]
      rw [htake, hdrop]
      rcases hkv with hkw | ⟨i, hvar⟩
      · rw [if_pos hkw]
        congr 1
        have hvi := keywords_varNameIndex _ hkw
        rw [NewAsc, hvi] at hna
        exact ih n f hts hchts hna hfuel2
      · rw [hvar, if_neg (varName_not_keyword i)]
        rw [NewAsc, hvar, varNameIndex_varName] at hna
        rcases hna with ⟨hlt, hna'⟩ | ⟨heq, hna'⟩
        · rw [assocFind_mkIdMap_lt hlt]
          show varName i :: tokenizeFuel f ts.flatten (mkIdMap n) n = varName i :: ts
          congr 1
          exact ih n f hts hchts hna' hfuel2
        · subst heq
          rw [assocFind_mkIdMap_none (fun j hj hv => absurd (varName_inj hv) (by omega))]
          show varName i :: tokenizeFuel f ts.flatten
            ((varName i, varName i) :: mkIdMap i) (i + 1) = varName i :: ts
          congr 1
          have hmk : ((varName i, varName i) :: mkIdMap i) = mkIdMap (i + 1) := rfl
          rw [hmk]
          exact ih (i + 1) f hts hchts hna' hfuel2
    · obtain ⟨d, rfl, hds, hdd, hdq⟩ :
          ∃ d, t = [d] ∧ isIdentStart d = false ∧ d.isDigit = false ∧
            ¬ (d = quoteD ∨ d = quoteS) := by
        rcases hsingle with hop | hsp
        · rcases isOpTok_shape hop with ⟨d, rfl, hopd⟩
          have hcl := isOpP_class hopd
          exact ⟨d, rfl, hcl.2.1, hcl.2.2.1, not_or.2 ⟨hcl.2.2.2.1, hcl.2.2.2.2.1⟩⟩
        · exact ⟨' ', hsp, by decide, by decide, by decide⟩
      have hfuel2 : ts.flatten.length + 1 ≤ f := by
        rw [hflat] at hfuel
        simp only [List.length_append, List.length_cons] at hfuel
        omega
      rw [hflat, show (([d] : Str) ++ ts.flatten) = d :: ts.flatten from rfl, tokenizeFuel]
      simp only [hds, hdd, hdq, Bool.false_eq_true, if_neg, if_false]
      congr 1
      rw [NewAsc, varNameIndex_single] at hna
      exact ih n f hts hchts hna hfuel2

/-- C4 (amended): `preprocess_cpp` under the default configuration is idempotent
on every input whose normalized token stream contains no `NUM` or `STR` marker
and whose single-character tokens are all operator characters or the space
character. (The unrestricted claim is refuted by `c4_counterexample`.) -/
theorem c4_idempotent_normal_form (code : Str)
    (hnum : numTok ∉ tokenize (whitespacePhase defaultConfig (commentPhase defaultConfig code)))
    (hstr : strTok ∉ tokenize (whitespacePhase defaultConfig (commentPhase defaultConfig code)))
    (hsg : ∀ t ∈ tokenize (whitespacePhase defaultConfig (commentPhase defaultConfig code)),
      t.length = 1 → isOpTok t = true ∨ t = [' ']) :
    preprocess_cpp defaultConfig (preprocess_cpp defaultConfig code) =
      preprocess_cpp defaultConfig code := by
  have hcc : commentPhase defaultConfig code = stripLineComments (stripBlockComments code) := rfl
  have hu : whitespacePhase defaultConfig (commentPhase defaultConfig code) =
      stripWsAroundOps (collapseWs (commentPhase defaultConfig code)) := rfl
  have hout : preprocess_cpp defaultConfig code =
      renderJoin (tokenize (whitespacePhase defaultConfig (commentPhase defaultConfig code))) :=
    rfl
  have hu_ws : ∀ ch ∈ whitespacePhase defaultConfig (commentPhase defaultConfig code),
      isWsP ch = true → ch = ' ' := by
    intro ch hch hw
    rw [hu] at hch
    rcases mem_stripWsOpsAux _ _ _ hch with h | h
    · simp at h
    · rcases mem_collapseWsAux _ _ h with h2 | h2
      · exact h2
      · rw [h2.2] at hw
        exact absurd hw (by simp)
  have hcoll_ws : ∀ ch ∈ collapseWs (commentPhase defaultConfig code),
      isWsP ch = true → ch = ' ' := by
    intro ch hch hw
    rcases mem_collapseWsAux _ _ hch with h2 | h2
    · exact h2
    · rw [h2.2] at hw
      exact absurd hw (by simp)
  have hu_chain : List.Chain' cleanAdj
      (whitespacePhase defaultConfig (commentPhase defaultConfig code)) := by
    rw [hu]
    exact (stripWsOpsAux_chain (collapseWs (commentPhase defaultConfig code)) false []
      (collapseWsAux_chain (commentPhase defaultConfig code) false).1
      hcoll_ws (by simp) (by simp) (fun h => absurd rfl h)).1
  have hmnil : ∀ kv ∈ ([] : List (Str × Str)), ∃ i, kv.2 = varName i := by
    intro kv hkv
    simp at hkv
  obtain ⟨hchainT, _⟩ := tokenizeFuel_chain
    ((whitespacePhase defaultConfig (commentPhase defaultConfig code)).length + 1)
    (whitespacePhase defaultConfig (commentPhase defaultConfig code)) [] 0
    hu_ws hu_chain hnum hstr hsg hmnil
  have hNA : NewAsc 0 (tokenize (whitespacePhase defaultConfig (commentPhase defaultConfig code))) :=
    tokenizeFuel_newAsc _ _ [] 0 (by intro kv hkv; simp at hkv)
  have hclass := fun t ht => tokenizeFuel_classes
    ((whitespacePhase defaultConfig (commentPhase defaultConfig code)).length + 1)
    (whitespacePhase defaultConfig (commentPhase defaultConfig code)) [] 0 hmnil
    (t := t) ht
  have hfacts3 : ∀ t ∈ tokenize (whitespacePhase defaultConfig (commentPhase defaultConfig code)),
      isWordTok t = true ∨ isOpTok t = true ∨ t = [' '] := by
    intro t ht
    rcases hclass t ht with ⟨hw, _⟩ | ⟨c, rfl, _⟩
    · exact Or.inl hw
    · exact Or.inr (hsg [c] ht rfl)
  have hfactsNP : ∀ t ∈ tokenize (whitespacePhase defaultConfig (commentPhase defaultConfig code)),
      isWordTok t = true ∨ t.length = 1 := by
    intro t ht
    rcases hclass t ht with ⟨hw, _⟩ | ⟨c, rfl, _⟩
    · exact Or.inl hw
    · exact Or.inr rfl
  have hfactsB : ∀ t ∈ tokenize (whitespacePhase defaultConfig (commentPhase defaultConfig code)),
      (isWordTok t = true ∧ (t ∈ cppKeywords ∨ ∃ i, t = varName i)) ∨
        isOpTok t = true ∨ t = [' '] := by
    intro t ht
    rcases hclass t ht with ⟨hw, hkind⟩ | ⟨c, rfl, _⟩
    · refine Or.inl ⟨hw, ?_⟩
      rcases hkind with h | h | h | h
      · exact Or.inl h
      · exact Or.inr h
      · exact absurd (h ▸ ht) hnum
      · exact absurd (h ▸ ht) hstr
    · exact Or.inr (hsg [c] ht rfl)
  set T := tokenize (whitespacePhase defaultConfig (commentPhase defaultConfig code)) with hT
  have hNP1 : noPair '/' '*' (renderJoin T) :=
    (noPair_iff_chain _).2 (chainNoPair (by decide) (by decide) (by decide) T hfactsNP)
  have hNP2 : noPair '/' '/' (renderJoin T) :=
    (noPair_iff_chain _).2 (chainNoPair (by decide) (by decide) (by decide) T hfactsNP)
  have hcp2 : commentPhase defaultConfig (renderJoin T) = renderJoin T :=
    commentPhase_id hNP1 hNP2
  have hA3 : collapseWs (renderJoin T) = denseRender T :=
    (collapseWs_renderJoin T hfacts3 hchainT).1
  have hA4 : stripWsAroundOps (denseRender T) = T.flatten :=
    (stripWs_denseRender T hfacts3 hchainT).1
  have hwp2 : whitespacePhase defaultConfig (commentPhase defaultConfig (renderJoin T)) =
      T.flatten := by
    rw [hcp2]
    show stripWsAroundOps (collapseWs (renderJoin T)) = T.flatten
    rw [show collapseWs (renderJoin T) = collapseWsAux false (renderJoin T) from rfl]
    rw [show collapseWsAux false (renderJoin T) = collapseWs (renderJoin T) from rfl, hA3, hA4]
  have hretok : tokenize T.flatten = T := by
    show tokenizeFuel (T.flatten.length + 1) T.flatten [] 0 = T
    rw [show ([] : List (Str × Str)) = mkIdMap 0 from rfl]
    exact retokenize T 0 (T.flatten.length + 1) hfactsB hchainT hNA (le_refl _)
  calc preprocess_cpp defaultConfig (preprocess_cpp defaultConfig code)
      = renderJoin (tokenize (whitespacePhase defaultConfig
          (commentPhase defaultConfig (renderJoin T)))) := by
        rw [hout]
        exact rfl
    _ = renderJoin (tokenize T.flatten) := by rw [hwp2]
    _ = renderJoin T := by rw [hretok]
    _ = preprocess_cpp defaultConfig code := by rw [hout]

theorem c4_idempotent_normal_form_witness :
    (numTok ∉ tokenize (whitespacePhase defaultConfig
        (commentPhase defaultConfig (str "a + b"))) ∧
     strTok ∉ tokenize (whitespacePhase defaultConfig
        (commentPhase defaultConfig (str "a + b"))) ∧
     (∀ t ∈ tokenize (whitespacePhase defaultConfig (commentPhase defaultConfig (str "a + b"))),
        t.length = 1 → isOpTok t = true ∨ t = [' '])) ∧
    preprocess_cpp defaultConfig (preprocess_cpp defaultConfig (str "a + b")) =
      preprocess_cpp defaultConfig (str "a + b") :=
  ⟨⟨by decide, by decide, by decide⟩,
   c4_idempotent_normal_form (str "a + b") (by decide) (by decide) (by decide)⟩
